import Mathlib

/-!
Verification of the faFF (Frank Abelbeck Font File) tool chain core:
the FNV-1 hash primitive, the minimal-perfect-hash builder
`createMinimalPerfectHash`, the `lookUp` engine, and the binary codec
(`createFile` encoding / `loadFile` decoding), shallowly embedded from
`faFFTool.py`.  Bytes are modelled as natural numbers, byte strings as
`List Nat`, Python lists as Lean lists, and raised exceptions as
`Except` errors.
-/

set_option maxHeartbeats 1000000

namespace FaFF

/-- A character code key: the list of its (three) bytes. -/
abbrev Key := List Nat

/-- A glyph bitmap: the list of its bytes. -/
abbrev Value := List Nat

/-- One entry of the value table: a key together with its bitmap. -/
abbrev Entry := Key × Value

def FNV1PRIME : Nat := 0x01000193

def FNV1OFFSET : Nat := 0x811c9dc5

/-- `FNV1MASK = 2^31 - 1`, the maximum value of an int32_t. -/
def FNV1MASK : Nat := 0x7fffffff

def MAXUCODE : Nat := 0x10ffff

/-- One round of the FNV-1 loop body
`seed = ((seed * FNV1PRIME) & FNV1MASK) ^ valueByte`; masking with
`FNV1MASK = 2^31 - 1` is reduction modulo `2^31`. -/
def hashStep (seed b : Nat) : Nat := (seed * FNV1PRIME % 2 ^ 31) ^^^ b

/-- `hashFNV1` from faFFTool.py: a seed of exactly 0 is replaced by the
default offset, then the FNV-1 round is folded over the bytes.  Python's
default argument `seed=FNV1OFFSET` is modelled by passing `FNV1OFFSET`
explicitly at every call site that uses the default. -/
def hashFNV1 (value : List Nat) (seed : Nat) : Nat :=
  value.foldl hashStep (if seed = 0 then FNV1OFFSET else seed)

/-- The primary hash index of a key: `hashFNV1(key) % nKeys` with the
default seed. -/
def pIdx (n : Nat) (k : Key) : Nat := hashFNV1 k FNV1OFFSET % n

/-- Dictionary access `source[key]`, modelled on an association list.
The builder only ever looks up keys that are present, so the default
never escapes. -/
def lookupD (src : List Entry) (k : Key) : Value := (List.lookup k src).getD []

/-- The bucket of primary index `p`: all keys of the source mapping whose
primary hash index is `p` (in source order). -/
def srcBucket (src : List Entry) (p : Nat) : List Key :=
  (src.map Prod.fst).filter (fun k => pIdx src.length k == p)

/-- `buckets[i].append(key)` of step 1 of `createMinimalPerfectHash`. -/
def appendAt (bs : List (List Key)) (i : Nat) (k : Key) : List (List Key) :=
  bs.set i (bs.getD i [] ++ [k])

/-- Step 1 of `createMinimalPerfectHash`: distribute the keys into
`n` buckets by primary hash index. -/
def bucketsInit (keys : List Key) (n : Nat) : List (List Key) :=
  keys.foldl (fun bs k => appendAt bs (pIdx n k) k) (List.replicate n [])

/-- The inner `while k < len(bucket)` loop of step 3, for one candidate
seed: compute the slot of each key in turn; fail (`none`, forcing a new
seed) as soon as a slot is occupied in `V` or already claimed in `slots`,
otherwise append the slot to `slots`. -/
def trySeed (n : Nat) (V : List (Option Entry)) (seed : Nat) :
    List Key → List Nat → Option (List Nat)
  | [], slots => some slots
  | k :: ks, slots =>
    let slot := hashFNV1 k seed % n
    if (V.getD slot none).isSome || slots.contains slot then none
    else trySeed n V seed ks (slots ++ [slot])

/-- The seed search of step 3.  The fuel argument keeps the recursion
structural and always equals `FNV1MASK - seed`, so fuel 0 together with a
collision is exactly the Python condition `seed >= FNV1MASK` under which
`ValueError("Hash seed exceeded 32 bit.")` is raised. -/
def findSeedAux (n : Nat) (V : List (Option Entry)) (bucket : List Key) :
    Nat → Nat → Except String (Nat × List Nat × Nat)
  | fuel, seed =>
    match trySeed n V seed bucket [] with
    | some slots => .ok (seed, slots, 0)
    | none =>
      match fuel with
      | 0 => .error "Hash seed exceeded 32 bit."
      | f + 1 =>
        match findSeedAux n V bucket f (seed + 1) with
        | .ok (s, sl, c) => .ok (s, sl, c + 1)
        | .error e => .error e

/-- The full seed search, starting at seed 1; the third component of a
successful result counts the rejected seeds (`nCollisions` increments). -/
def findSeed (n : Nat) (V : List (Option Entry)) (bucket : List Key) :
    Except String (Nat × List Nat × Nat) :=
  findSeedAux n V bucket (FNV1MASK - 1) 1

/-- `for k,slot in enumerate(slots): V[slot] = (bucket[k],source[bucket[k]])`
of step 3. -/
def fillSlots (src : List Entry) :
    List (Option Entry) → List Key → List Nat → List (Option Entry)
  | V, k :: ks, s :: ss => fillSlots src (V.set s (some (k, lookupD src k))) ks ss
  | V, _, _ => V

/-- Step 3 of `createMinimalPerfectHash`: pop buckets while the first one
has more than one key, search a seed for each, record it in `G` and
spread the bucket over `V`. -/
def step3 (src : List Entry) (n : Nat) :
    List (List Key) → List Int → List (Option Entry) → Nat → Nat →
    Except String (List (List Key) × List Int × List (Option Entry) × Nat × Nat)
  | [], G, V, chk, coll => .ok ([], G, V, chk, coll)
  | b :: rest, G, V, chk, coll =>
    if 1 < b.length then
      match findSeed n V b with
      | .error e => .error e
      | .ok (seed, slots, c) =>
        step3 src n rest (G.set (pIdx n b.headI) (seed : Int))
          (fillSlots src V b slots) (chk + slots.length) (coll + c)
    else .ok (b :: rest, G, V, chk, coll)

/-- Index of the first `none` element of the list, if any. -/
def firstNoneIdx : List (Option Entry) → Option Nat
  | [] => none
  | none :: _ => some 0
  | some _ :: rest => (firstNoneIdx rest).map (· + 1)

/-- The `while k < len(V)` scan of step 4: the first free slot of `V` at
or after position `k`, or `none` when the scan runs off the end (the
`IndexError("No free slots left.")` case). -/
def findFreeSlot (V : List (Option Entry)) (k : Nat) : Option Nat :=
  (firstNoneIdx (V.drop k)).map (· + k)

/-- Step 4 of `createMinimalPerfectHash`: pop buckets while the first one
is non-empty, place `bucket[0]` into the next free slot (the scan
position `k` persists across iterations) and record `-slot-1` in `G`. -/
def step4 (src : List Entry) (n : Nat) :
    List (List Key) → Nat → List Int → List (Option Entry) → Nat →
    Except String (List Int × List (Option Entry) × Nat)
  | [], _, G, V, chk => .ok (G, V, chk)
  | b :: rest, k, G, V, chk =>
    if 0 < b.length then
      match findFreeSlot V k with
      | none => .error "No free slots left."
      | some slot =>
        step4 src n rest slot (G.set (pIdx n b.headI) (-(slot : Int) - 1))
          (V.set slot (some (b.headI, lookupD src b.headI))) (chk + 1)
    else .ok (G, V, chk)

/-- `createMinimalPerfectHash` from faFFTool.py.  The source dictionary is
modelled as an association list in insertion order.  The bucket sort
`buckets.sort(key=len, reverse=True)` is Python's stable sort by
descending length; insertion sort with the total preorder
`b.length ≤ a.length` is stable and therefore produces the same list.
On success every slot of the accumulator `V` is filled (the final
`nKeys == nCheck` check), so stripping the `Option` layer loses
nothing. -/
def createMinimalPerfectHash (src : List Entry) :
    Except String (List Int × List Entry × Nat) :=
  let n := src.length
  let buckets := List.insertionSort (fun a b : List Key => b.length ≤ a.length)
      (bucketsInit (src.map Prod.fst) n)
  match step3 src n buckets (List.replicate n 0) (List.replicate n none) 0 0 with
  | .error e => .error e
  | .ok (rest, G, V, chk, coll) =>
    match step4 src n rest 0 G V chk with
    | .error e => .error e
    | .ok (G2, V2, chk2) =>
      if n = chk2 then .ok (G2, V2.map (fun o => o.getD ([], [])), coll)
      else .error "Mismatch between number of keys and number of processed keys."

/-- The two exceptions `lookUp` can raise: `KeyError` for a stored-key
mismatch and `IndexError` for an out-of-range list subscript. -/
inductive LookUpError
  | keyError
  | indexError
deriving DecidableEq, Repr

/-- `lookUp` from faFFTool.py: primary hash selects a `G` entry; a
negative entry is a direct slot `-g-1`, a non-negative entry re-hashes
with itself as seed; the stored key must match exactly. -/
def lookUp (nKeys : Nat) (G : List Int) (V : List Entry) (key : Key) :
    Except LookUpError Value :=
  match G[hashFNV1 key FNV1OFFSET % nKeys]? with
  | none => .error .indexError
  | some g =>
    let v : Nat := if g < 0 then (-g - 1).toNat else hashFNV1 key g.toNat % nKeys
    match V[v]? with
    | none => .error .indexError
    | some entry => if entry.1 = key then .ok entry.2 else .error .keyError

/-- The slot that `lookUp` resolves `key` to (without the final key
comparison): `none` when the `G` subscript itself is out of range. -/
def lookUpSlot (n : Nat) (G : List Int) (k : Key) : Option Nat :=
  (G[pIdx n k]?).map (fun g => if g < 0 then (-g - 1).toNat else hashFNV1 k g.toNat % n)

/-- A candidate seed is good for a bucket when the slots it assigns to
the bucket's keys are pairwise distinct and all still free in `V` —
exactly the condition the inner loop of step 3 checks. -/
def goodSeed (n : Nat) (V : List (Option Entry)) (bucket : List Key) (s : Nat) : Prop :=
  (bucket.map (fun k => hashFNV1 k s % n)).Nodup ∧
  ∀ sl ∈ bucket.map (fun k => hashFNV1 k s % n), V.getD sl none = none

/-- The loop invariant of the builder, over the remaining bucket list
`bs`, the tables `G` and `V` under construction and the checksum `chk`. -/
structure Inv (src : List Entry) (bs : List (List Key)) (G : List Int)
    (V : List (Option Entry)) (chk : Nat) : Prop where
  lenG : G.length = src.length
  lenV : V.length = src.length
  pending : ∀ b ∈ bs, b ≠ [] → b = srcBucket src (pIdx src.length b.headI)
  pdist : bs.Pairwise (fun a b => a ≠ [] → b ≠ [] →
    pIdx src.length a.headI ≠ pIdx src.length b.headI)
  psorted : bs.Pairwise (fun a b => b.length ≤ a.length)
  disj : ∀ (i : Nat) (e : Entry), V[i]? = some (some e) → ∀ b ∈ bs, e.1 ∉ b
  placedOK : ∀ (i : Nat) (e : Entry), V[i]? = some (some e) →
    e ∈ src ∧ lookUpSlot src.length G e.1 = some i
  gzero : ∀ p, p < src.length →
    ((∃ b ∈ bs, b ≠ [] ∧ pIdx src.length b.headI = p) ∨ srcBucket src p = []) →
    G[p]? = some 0
  gsign : ∀ p, p < src.length → srcBucket src p ≠ [] →
    (∀ b ∈ bs, b ≠ [] → pIdx src.length b.headI ≠ p) →
    (2 ≤ (srcBucket src p).length → ∃ g, G[p]? = some g ∧ 1 ≤ g) ∧
    ((srcBucket src p).length = 1 →
      ∃ g, G[p]? = some g ∧ -(src.length : Int) ≤ g ∧ g ≤ -1)
  chkEq : chk = V.countP (fun o => o.isSome)
  pkeys : ∀ (i j : Nat) (e e' : Entry), V[i]? = some (some e) → V[j]? = some (some e') →
    i ≠ j → e.1 ≠ e'.1

/-- Binary decoding errors of `loadFile`: bad signature (`ValueError`),
the three header zero checks (`IndexError`) and a short read
(`struct.error`). -/
inductive LoadError
  | badSignature
  | zeroWidth
  | zeroHeight
  | emptyTable
  | structError
deriving DecidableEq, Repr

/-- Big-endian `m.to_bytes(k, "big")` (the callers keep `m < 256^k`). -/
def toBytesBE : Nat → Nat → List Nat
  | 0, _ => []
  | k + 1, m => toBytesBE k (m / 256) ++ [m % 256]

/-- Big-endian unsigned integer value of a byte string. -/
def fromBytesBE (bs : List Nat) : Nat := bs.foldl (fun a b => a * 256 + b) 0

/-- The value of a 4-byte big-endian word read as a signed 32-bit integer
(`struct.unpack(">i", ...)`). -/
def toInt32 (m : Nat) : Int :=
  if m < 2 ^ 31 then (m : Int) else (m : Int) - 2 ^ 32

/-- Encoding of one `G` entry in `createFile`: a negative value is
replaced by its 32-bit two's complement `0x100000000 + g` before the
big-endian write. -/
def encodeInt32 (g : Int) : List Nat :=
  toBytesBE 4 (if g < 0 then ((0x100000000 : Int) + g).toNat else g.toNat)

/-- The output byte string assembled by `createFile`: signature, width,
height, entry count `len(G)` as 4 bytes big-endian, the `G` table as
int32 words, then each `V` entry as its 3 key bytes followed by its
bitmap bytes. -/
def createFileBytes (width height : Nat) (G : List Int) (V : List Entry) : List Nat :=
  [0xfa, 0xff] ++ toBytesBE 1 width ++ toBytesBE 1 height ++ toBytesBE 4 G.length
    ++ (G.map encodeInt32).flatten ++ (V.map (fun v => v.1 ++ v.2)).flatten

/-- `infile.read(k)` followed by a fixed-size `struct.unpack`: returns the
first `k` bytes and the remaining input, or `struct.error` when fewer
than `k` bytes are left. -/
def readBytes (k : Nat) (bs : List Nat) : Except LoadError (List Nat × List Nat) :=
  if k ≤ bs.length then .ok (bs.take k, bs.drop k) else .error .structError

/-- Reading the intermediate table `G`: `n` signed 32-bit big-endian
words. -/
def readG : Nat → List Nat → Except LoadError (List Int × List Nat)
  | 0, bs => .ok ([], bs)
  | n + 1, bs =>
    match readBytes 4 bs with
    | .error e => .error e
    | .ok (gb, rest) =>
      match readG n rest with
      | .error e => .error e
      | .ok (gs, rest2) => .ok (toInt32 (fromBytesBE gb) :: gs, rest2)

/-- Reading the value table `V`: `n` entries of `entrySize` bytes each,
split as 3 key bytes plus the bitmap (`struct.unpack(">3s{m}s", ...)`). -/
def readV (entrySize : Nat) : Nat → List Nat → Except LoadError (List Entry × List Nat)
  | 0, bs => .ok ([], bs)
  | n + 1, bs =>
    match readBytes entrySize bs with
    | .error e => .error e
    | .ok (eb, rest) =>
      match readV entrySize n rest with
      | .error e => .error e
      | .ok (vs, rest2) => .ok ((eb.take 3, eb.drop 3) :: vs, rest2)

/-- `loadFile` from faFFTool.py, on the byte string of the input file;
the final component of a successful result is the unread remainder of
the input (the file position after the reads). -/
def loadFile (bs : List Nat) :
    Except LoadError (Nat × Nat × Nat × List Int × List Entry × List Nat) :=
  if bs.take 2 = [0xfa, 0xff] then
    match readBytes 6 (bs.drop 2) with
    | .error e => .error e
    | .ok (hdr, r1) =>
      match hdr with
      | [w, h, n3, n2, n1, n0] =>
        let nChars := fromBytesBE [n3, n2, n1, n0]
        if w = 0 then .error .zeroWidth
        else if h = 0 then .error .zeroHeight
        else if nChars = 0 then .error .emptyTable
        else
          match readG nChars r1 with
          | .error e => .error e
          | .ok (G, r2) =>
            match readV (3 + w * ((h - 1) / 8 + 1)) nChars r2 with
            | .error e => .error e
            | .ok (V, r3) => .ok (w, h, nChars, G, V, r3)
      | _ => .error .structError
  else .error .badSignature

/-! ### Hash primitive lemmas -/

theorem foldl_hashStep_lt : ∀ (value : List Nat) (s : Nat), value ≠ [] →
    (∀ b ∈ value, b < 256) → value.foldl hashStep s < 2 ^ 31 := by
  intro value
  induction value with
  | nil => intro s h _; exact absurd rfl h
  | cons b bs ih =>
    intro s _ hb
    rw [List.foldl_cons]
    cases bs with
    | nil =>
      rw [List.foldl_nil]
      show (s * FNV1PRIME % 2 ^ 31) ^^^ b < 2 ^ 31
      have hb' : b < 2 ^ 31 := lt_trans (hb b (by simp)) (by norm_num)
      exact Nat.xor_lt_two_pow (Nat.mod_lt _ (by norm_num)) hb'
    | cons c cs =>
      exact ih (hashStep s b) (by simp) (fun x hx => hb x (List.mem_cons_of_mem _ hx))

/-! ### lookUp lemmas -/

theorem lookUp_eq_slot (nKeys : Nat) (G : List Int) (V : List Entry) (key : Key) :
    lookUp nKeys G V key =
      match lookUpSlot nKeys G key with
      | none => .error .indexError
      | some i =>
        match V[i]? with
        | none => .error .indexError
        | some entry => if entry.1 = key then .ok entry.2 else .error .keyError := by
  unfold lookUp lookUpSlot pIdx
  cases G[hashFNV1 key FNV1OFFSET % nKeys]? <;> rfl

/-! ### Seed-search lemmas -/

theorem trySeed_cons (n : Nat) (V : List (Option Entry)) (s : Nat) (k : Key)
    (ks : List Key) (acc : List Nat) :
    trySeed n V s (k :: ks) acc =
      if (V.getD (hashFNV1 k s % n) none).isSome || acc.contains (hashFNV1 k s % n)
      then none else trySeed n V s ks (acc ++ [hashFNV1 k s % n]) := rfl

theorem trySeed_some_eq (n : Nat) (V : List (Option Entry)) (s : Nat) :
    ∀ (ks : List Key) (acc out : List Nat), trySeed n V s ks acc = some out →
      out = acc ++ ks.map (fun k => hashFNV1 k s % n) := by
  intro ks
  induction ks with
  | nil =>
    intro acc out h
    simp only [trySeed, Option.some.injEq] at h
    simp [← h]
  | cons k ks ih =>
    intro acc out h
    rw [trySeed_cons] at h
    by_cases hc : ((V.getD (hashFNV1 k s % n) none).isSome
        || acc.contains (hashFNV1 k s % n)) = true
    · rw [if_pos hc] at h; exact absurd h (by simp)
    · rw [if_neg hc] at h
      have := ih (acc ++ [hashFNV1 k s % n]) out h
      simp only [List.map_cons, this, List.append_assoc, List.singleton_append]

theorem trySeed_some_prop (n : Nat) (V : List (Option Entry)) (s : Nat) :
    ∀ (ks : List Key) (acc out : List Nat), acc.Nodup → trySeed n V s ks acc = some out →
      out.Nodup ∧ ∀ sl ∈ ks.map (fun k => hashFNV1 k s % n), V.getD sl none = none := by
  intro ks
  induction ks with
  | nil =>
    intro acc out hacc h
    simp only [trySeed, Option.some.injEq] at h
    exact ⟨h ▸ hacc, by simp⟩
  | cons k ks ih =>
    intro acc out hacc h
    rw [trySeed_cons] at h
    by_cases hc : ((V.getD (hashFNV1 k s % n) none).isSome
        || acc.contains (hashFNV1 k s % n)) = true
    · rw [if_pos hc] at h; exact absurd h (by simp)
    · rw [if_neg hc] at h
      simp only [Bool.or_eq_true, not_or, Bool.not_eq_true] at hc
      have hfree : V.getD (hashFNV1 k s % n) none = none :=
        Option.not_isSome_iff_eq_none.mp (by rw [hc.1]; simp)
      have hnot : hashFNV1 k s % n ∉ acc := by
        have := hc.2
        simpa using this
      have hacc' : (acc ++ [hashFNV1 k s % n]).Nodup := by
        simp [List.nodup_append, hacc, hnot]
      obtain ⟨h1, h2⟩ := ih (acc ++ [hashFNV1 k s % n]) out hacc' h
      refine ⟨h1, ?_⟩
      intro sl hsl
      rw [List.map_cons, List.mem_cons] at hsl
      rcases hsl with h' | h'
      · exact h' ▸ hfree
      · exact h2 sl h'

theorem trySeed_complete (n : Nat) (V : List (Option Entry)) (s : Nat) :
    ∀ (ks : List Key) (acc : List Nat), acc.Nodup →
      (acc ++ ks.map (fun k => hashFNV1 k s % n)).Nodup →
      (∀ sl ∈ ks.map (fun k => hashFNV1 k s % n), V.getD sl none = none) →
      trySeed n V s ks acc = some (acc ++ ks.map (fun k => hashFNV1 k s % n)) := by
  intro ks
  induction ks with
  | nil => intro acc _ _ _; simp [trySeed]
  | cons k ks ih =>
    intro acc hacc hnd hfree
    rw [trySeed_cons]
    have hfreek : V.getD (hashFNV1 k s % n) none = none := hfree _ (by simp)
    have hnotin : hashFNV1 k s % n ∉ acc := by
      intro hmem
      rw [List.map_cons, List.nodup_append] at hnd
      exact hnd.2.2 hmem (by simp)
    have hb1 : (V.getD (hashFNV1 k s % n) none).isSome = false := by
      rw [hfreek]; rfl
    have hb2 : acc.contains (hashFNV1 k s % n) = false := by simp [hnotin]
    rw [if_neg (by rw [hb1, hb2]; simp)]
    have hnd' : ((acc ++ [hashFNV1 k s % n]) ++
        ks.map (fun k => hashFNV1 k s % n)).Nodup := by
      rw [List.append_assoc, List.singleton_append]
      simpa using hnd
    have := ih (acc ++ [hashFNV1 k s % n])
      (by simp [List.nodup_append, hacc, hnotin]) hnd'
      (fun sl hsl => hfree sl (by rw [List.map_cons, List.mem_cons]; exact Or.inr hsl))
    rw [this, List.append_assoc, List.singleton_append, List.map_cons]

theorem trySeed_of_goodSeed (n : Nat) (V : List (Option Entry)) (b : List Key)
    (s : Nat) (h : goodSeed n V b s) :
    trySeed n V s b [] = some (b.map (fun k => hashFNV1 k s % n)) := by
  have := trySeed_complete n V s b [] (by simp) (by simpa using h.1) h.2
  simpa using this

theorem goodSeed_of_trySeed (n : Nat) (V : List (Option Entry)) (b : List Key)
    (s : Nat) (out : List Nat) (h : trySeed n V s b [] = some out) :
    goodSeed n V b s := by
  obtain ⟨h1, h2⟩ := trySeed_some_prop n V s b [] out (by simp) h
  have heq := trySeed_some_eq n V s b [] out h
  simp only [List.nil_append] at heq
  exact ⟨heq ▸ h1, h2⟩

theorem findSeedAux_ok (n : Nat) (V : List (Option Entry)) (b : List Key) :
    ∀ (fuel seed s : Nat) (sl : List Nat) (c : Nat),
      findSeedAux n V b fuel seed = .ok (s, sl, c) →
      seed ≤ s ∧ goodSeed n V b s ∧ sl = b.map (fun k => hashFNV1 k s % n) ∧
      (∀ t, seed ≤ t → t < s → ¬ goodSeed n V b t) ∧ c = s - seed := by
  intro fuel
  induction fuel with
  | zero =>
    intro seed s sl c h
    rw [findSeedAux] at h
    cases htry : trySeed n V seed b [] with
    | none => rw [htry] at h; exact absurd h (by simp)
    | some out =>
      rw [htry] at h
      simp only [Except.ok.injEq, Prod.mk.injEq] at h
      obtain ⟨h1, h2, h3⟩ := h
      subst h1 h2 h3
      refine ⟨le_refl _, goodSeed_of_trySeed n V b seed out htry, ?_, ?_, by omega⟩
      · exact (trySeed_some_eq n V seed b [] out htry).trans (by simp)
      · intro t h1 h2; omega
  | succ f ih =>
    intro seed s sl c h
    rw [findSeedAux] at h
    cases htry : trySeed n V seed b [] with
    | some out =>
      rw [htry] at h
      simp only [Except.ok.injEq, Prod.mk.injEq] at h
      obtain ⟨h1, h2, h3⟩ := h
      subst h1 h2 h3
      refine ⟨le_refl _, goodSeed_of_trySeed n V b seed out htry, ?_, ?_, by omega⟩
      · exact (trySeed_some_eq n V seed b [] out htry).trans (by simp)
      · intro t h1 h2; omega
    | none =>
      rw [htry] at h
      cases hrec : findSeedAux n V b f (seed + 1) with
      | error e => rw [hrec] at h; exact absurd h (by simp)
      | ok r =>
        obtain ⟨s', sl', c'⟩ := r
        rw [hrec] at h
        simp only [Except.ok.injEq, Prod.mk.injEq] at h
        obtain ⟨h1, h2, h3⟩ := h
        subst h1 h2 h3
        obtain ⟨ih1, ih2, ih3, ih4, ih5⟩ := ih (seed + 1) s' sl' c' hrec
        refine ⟨by omega, ih2, ih3, ?_, by omega⟩
        intro t ht1 ht2
        rcases Nat.eq_or_lt_of_le ht1 with he | hl
        · intro hgood
          rw [← he] at hgood
          rw [trySeed_of_goodSeed n V b seed hgood] at htry
          exact absurd htry (by simp)
        · exact ih4 t hl ht2

theorem findSeedAux_err (n : Nat) (V : List (Option Entry)) (b : List Key) :
    ∀ (fuel seed : Nat) (e : String), findSeedAux n V b fuel seed = .error e →
      ∀ t, seed ≤ t → t ≤ seed + fuel → ¬ goodSeed n V b t := by
  intro fuel
  induction fuel with
  | zero =>
    intro seed e h t ht1 ht2
    rw [findSeedAux] at h
    cases htry : trySeed n V seed b [] with
    | some out => rw [htry] at h; exact absurd h (by simp)
    | none =>
      have ht : t = seed := by omega
      rw [ht]
      intro hgood
      rw [trySeed_of_goodSeed n V b seed hgood] at htry
      exact absurd htry (by simp)
  | succ f ih =>
    intro seed e h t ht1 ht2
    rw [findSeedAux] at h
    cases htry : trySeed n V seed b [] with
    | some out => rw [htry] at h; exact absurd h (by simp)
    | none =>
      rw [htry] at h
      cases hrec : findSeedAux n V b f (seed + 1) with
      | ok r => obtain ⟨s', sl', c'⟩ := r; rw [hrec] at h; exact absurd h (by simp)
      | error e' =>
        rcases Nat.eq_or_lt_of_le ht1 with he | hl
        · rw [← he]
          intro hgood
          rw [trySeed_of_goodSeed n V b seed hgood] at htry
          exact absurd htry (by simp)
        · exact ih (seed + 1) e' hrec t hl (by omega)

/-! ### Association-list and slot-filling lemmas -/

theorem lookupD_mem (src : List Entry) (k : Key) (h : k ∈ src.map Prod.fst) :
    (k, lookupD src k) ∈ src := by
  induction src with
  | nil => simp at h
  | cons e t ih =>
    obtain ⟨k0, v0⟩ := e
    by_cases he : k = k0
    · subst he
      simp [lookupD, List.lookup]
    · rw [List.map_cons, List.mem_cons] at h
      rcases h with h | h
      · exact absurd h he
      · have hb : (k == k0) = false := beq_eq_false_iff_ne.mpr he
        have : lookupD ((k0, v0) :: t) k = lookupD t k := by
          simp [lookupD, List.lookup, hb]
        rw [this]
        exact List.mem_cons_of_mem _ (ih h)

theorem lookupD_eq (src : List Entry) (k : Key) (val : Value)
    (hnd : (src.map Prod.fst).Nodup) (h : (k, val) ∈ src) : lookupD src k = val := by
  induction src with
  | nil => simp at h
  | cons e t ih =>
    obtain ⟨k0, v0⟩ := e
    rw [List.mem_cons] at h
    rw [List.map_cons, List.nodup_cons] at hnd
    rcases h with h | h
    · obtain ⟨h1, h2⟩ := Prod.mk.injEq .. ▸ h
      subst h1; subst h2
      simp [lookupD, List.lookup]
    · have hne : k ≠ k0 := by
        intro he
        subst he
        exact hnd.1 (List.mem_map.mpr ⟨(k, val), h, rfl⟩)
      have hb : (k == k0) = false := beq_eq_false_iff_ne.mpr hne
      have : lookupD ((k0, v0) :: t) k = lookupD t k := by
        simp [lookupD, List.lookup, hb]
      rw [this]
      exact ih hnd.2 h

theorem countP_set_some (V : List (Option Entry)) :
    ∀ (s : Nat) (x : Entry), V[s]? = some none →
      (V.set s (some x)).countP (fun o => o.isSome) =
        V.countP (fun o => o.isSome) + 1 := by
  induction V with
  | nil => intro s x h; simp at h
  | cons v vs ih =>
    intro s x h
    cases s with
    | zero =>
      simp only [List.getElem?_cons_zero, Option.some.injEq] at h
      subst h
      simp [List.countP_cons]
    | succ s' =>
      simp only [List.getElem?_cons_succ] at h
      simp only [List.set_cons_succ, List.countP_cons, ih s' x h]
      omega

theorem zip_map_self {f : Key → Nat} :
    ∀ (ks : List Key) (k : Key) (s : Nat), (k, s) ∈ ks.zip (ks.map f) → s = f k := by
  intro ks
  induction ks with
  | nil => intro k s h; simp at h
  | cons k0 ks ih =>
    intro k s h
    rw [List.map_cons, List.zip_cons_cons, List.mem_cons] at h
    rcases h with h | h
    · obtain ⟨h1, h2⟩ := Prod.mk.injEq .. ▸ h
      subst h1; subst h2; rfl
    · exact ih k s h

theorem zip_key_inj :
    ∀ (ks : List Key) (ss : List Nat) (k : Key) (s s' : Nat), ks.Nodup →
      (k, s) ∈ ks.zip ss → (k, s') ∈ ks.zip ss → s = s' := by
  intro ks
  induction ks with
  | nil => intro ss k s s' _ h; simp at h
  | cons k0 ks ih =>
    intro ss k s s' hnd h1 h2
    cases ss with
    | nil => simp at h1
    | cons s0 ss =>
      rw [List.nodup_cons] at hnd
      rw [List.zip_cons_cons, List.mem_cons] at h1 h2
      rcases h1 with h1 | h1 <;> rcases h2 with h2 | h2
      · obtain ⟨_, e1⟩ := Prod.mk.injEq .. ▸ h1
        obtain ⟨_, e2⟩ := Prod.mk.injEq .. ▸ h2
        rw [e1, e2]
      · obtain ⟨e1, _⟩ := Prod.mk.injEq .. ▸ h1
        exact absurd (e1 ▸ (List.of_mem_zip h2).1) hnd.1
      · obtain ⟨e2, _⟩ := Prod.mk.injEq .. ▸ h2
        exact absurd (e2 ▸ (List.of_mem_zip h1).1) hnd.1
      · exact ih ss k s s' hnd.2 h1 h2

theorem fillSlots_length (src : List Entry) :
    ∀ (ks : List Key) (ss : List Nat) (V : List (Option Entry)),
      (fillSlots src V ks ss).length = V.length := by
  intro ks
  induction ks with
  | nil => intro ss V; cases ss <;> rfl
  | cons k ks ih =>
    intro ss V
    cases ss with
    | nil => rfl
    | cons s0 ss => rw [fillSlots, ih, List.length_set]

theorem fillSlots_not_mem (src : List Entry) :
    ∀ (ks : List Key) (ss : List Nat) (V : List (Option Entry)) (i : Nat), i ∉ ss →
      (fillSlots src V ks ss)[i]? = V[i]? := by
  intro ks
  induction ks with
  | nil => intro ss V i _; cases ss <;> rfl
  | cons k ks ih =>
    intro ss V i hi
    cases ss with
    | nil => rfl
    | cons s0 ss =>
      rw [List.mem_cons, not_or] at hi
      rw [fillSlots, ih ss _ i hi.2, List.getElem?_set, if_neg (Ne.symm hi.1)]

theorem fillSlots_zip (src : List Entry) :
    ∀ (ks : List Key) (ss : List Nat) (V : List (Option Entry)), ss.Nodup →
      (∀ s ∈ ss, V[s]? = some none) →
      ∀ (k : Key) (s : Nat), (k, s) ∈ ks.zip ss →
        (fillSlots src V ks ss)[s]? = some (some (k, lookupD src k)) := by
  intro ks
  induction ks with
  | nil => intro ss V _ _ k s h; simp at h
  | cons k0 ks ih =>
    intro ss V hnd hfree k s h
    cases ss with
    | nil => simp at h
    | cons s0 ss =>
      rw [List.nodup_cons] at hnd
      have hs0 : s0 < V.length := by
        by_contra hc
        have h' := hfree s0 (by simp)
        rw [List.getElem?_eq_none (by omega)] at h'
        exact absurd h' (by simp)
      rw [List.zip_cons_cons, List.mem_cons] at h
      rw [fillSlots]
      rcases h with h | h
      · obtain ⟨h1, h2⟩ := Prod.mk.injEq .. ▸ h
        rw [h1, h2]
        rw [fillSlots_not_mem src ks ss _ s0 hnd.1,
          List.getElem?_set, if_pos rfl, if_pos hs0]
      · have hsmem : s ∈ ss := (List.of_mem_zip h).2
        exact ih ss (V.set s0 (some (k0, lookupD src k0))) hnd.2
          (fun t ht => by
            rw [List.getElem?_set, if_neg (by rintro rfl; exact hnd.1 ht)]
            exact hfree t (List.mem_cons_of_mem _ ht))
          k s h

theorem fillSlots_inv (src : List Entry) :
    ∀ (ks : List Key) (ss : List Nat) (V : List (Option Entry)) (i : Nat) (e : Entry),
      (fillSlots src V ks ss)[i]? = some (some e) →
      V[i]? = some (some e) ∨
        ∃ k s, (k, s) ∈ ks.zip ss ∧ i = s ∧ e = (k, lookupD src k) := by
  intro ks
  induction ks with
  | nil =>
    intro ss V i e h
    cases ss <;> exact Or.inl h
  | cons k0 ks ih =>
    intro ss V i e h
    cases ss with
    | nil => exact Or.inl h
    | cons s0 ss =>
      rw [fillSlots] at h
      rcases ih ss _ i e h with h' | ⟨k, s, hz, hi, he⟩
      · rw [List.getElem?_set] at h'
        by_cases his : s0 = i
        · subst his
          by_cases hlt : s0 < V.length
          · rw [if_pos rfl, if_pos hlt] at h'
            refine Or.inr ⟨k0, s0, ?_, rfl, ?_⟩
            · rw [List.zip_cons_cons]; exact List.mem_cons_self _ _
            · simp only [Option.some.injEq] at h'
              exact h'.symm
          · rw [if_pos rfl, if_neg hlt] at h'
            exact absurd h' (by simp)
        · rw [if_neg his] at h'
          exact Or.inl h'
      · exact Or.inr ⟨k, s, by rw [List.zip_cons_cons]; exact List.mem_cons_of_mem _ hz,
          hi, he⟩

theorem fillSlots_countP (src : List Entry) :
    ∀ (ks : List Key) (ss : List Nat) (V : List (Option Entry)),
      ks.length = ss.length → ss.Nodup → (∀ s ∈ ss, V[s]? = some none) →
      (fillSlots src V ks ss).countP (fun o => o.isSome) =
        V.countP (fun o => o.isSome) + ss.length := by
  intro ks
  induction ks with
  | nil =>
    intro ss V hlen _ _
    rw [List.length_nil] at hlen
    have : ss = [] := List.length_eq_zero.mp hlen.symm
    subst this
    rfl
  | cons k0 ks ih =>
    intro ss V hlen hnd hfree
    cases ss with
    | nil => simp at hlen
    | cons s0 ss =>
      rw [List.nodup_cons] at hnd
      rw [fillSlots]
      rw [ih ss (V.set s0 (some (k0, lookupD src k0))) (by simpa using hlen) hnd.2
        (fun t ht => by
          rw [List.getElem?_set, if_neg (by rintro rfl; exact hnd.1 ht)]
          exact hfree t (List.mem_cons_of_mem _ ht))]
      rw [countP_set_some V s0 _ (hfree s0 (by simp))]
      simp only [List.length_cons]
      omega

/-! ### Free-slot scan lemmas -/

theorem firstNoneIdx_spec : ∀ (l : List (Option Entry)) (j : Nat),
    firstNoneIdx l = some j → l[j]? = some none := by
  intro l
  induction l with
  | nil => intro j h; simp [firstNoneIdx] at h
  | cons o rest ih =>
    intro j h
    cases o with
    | none =>
      simp only [firstNoneIdx, Option.some.injEq] at h
      rw [← h]
      simp
    | some e =>
      simp only [firstNoneIdx, Option.map_eq_some'] at h
      obtain ⟨j', hj', hjj⟩ := h
      rw [← hjj]
      simpa using ih j' hj'

theorem findFreeSlot_spec (V : List (Option Entry)) (k s : Nat)
    (h : findFreeSlot V k = some s) : V[s]? = some none ∧ k ≤ s := by
  unfold findFreeSlot at h
  rw [Option.map_eq_some'] at h
  obtain ⟨j, hj, hjs⟩ := h
  have := firstNoneIdx_spec (V.drop k) j hj
  rw [List.getElem?_drop] at this
  rw [← hjs]
  refine ⟨?_, by omega⟩
  rw [Nat.add_comm j k]
  exact this

/-! ### Builder invariant: helper lemmas -/

theorem headI_mem {l : List Key} (h : l ≠ []) : l.headI ∈ l := by
  cases l with
  | nil => exact absurd rfl h
  | cons a t => exact List.mem_cons_self _ _

theorem pIdx_lt (n : Nat) (hn : 0 < n) (k : Key) : pIdx n k < n :=
  Nat.mod_lt _ hn

theorem srcBucket_mem_iff (src : List Entry) (p : Nat) (k : Key) :
    k ∈ srcBucket src p ↔ k ∈ src.map Prod.fst ∧ pIdx src.length k = p := by
  simp [srcBucket, List.mem_filter]

theorem getD_none_eq (V : List (Option Entry)) (i : Nat) (hi : i < V.length)
    (h : V.getD i none = none) : V[i]? = some none := by
  rw [List.getD_eq_getElem?_getD, List.getElem?_eq_getElem hi] at h
  rw [List.getElem?_eq_getElem hi]
  simp only [Option.getD_some] at h
  rw [h]

theorem src_length_pos_of_mem {src : List Entry} {k : Key}
    (h : k ∈ src.map Prod.fst) : 0 < src.length := by
  have := List.ne_nil_of_mem h
  cases src with
  | nil => simp at this
  | cons e t => simp

theorem placed_primary_ne (src : List Entry) (bs : List (List Key)) (G : List Int)
    (V : List (Option Entry)) (chk : Nat) (hInv : Inv src bs G V chk)
    (b : List Key) (hb : b ∈ bs) (hbne : b ≠ []) (i : Nat) (e : Entry)
    (he : V[i]? = some (some e)) :
    pIdx src.length e.1 ≠ pIdx src.length b.headI := by
  intro hpe
  have hpend := hInv.pending b hb hbne
  have hesrc := (hInv.placedOK i e he).1
  have hmem : e.1 ∈ srcBucket src (pIdx src.length b.headI) :=
    (srcBucket_mem_iff src _ e.1).mpr ⟨List.mem_map.mpr ⟨e, hesrc, rfl⟩, hpe⟩
  rw [← hpend] at hmem
  exact hInv.disj i e he b hb hmem

theorem mem_bucket_facts (src : List Entry) (bs : List (List Key)) (G : List Int)
    (V : List (Option Entry)) (chk : Nat) (hInv : Inv src bs G V chk)
    (b : List Key) (hb : b ∈ bs) (hbne : b ≠ []) (k : Key) (hk : k ∈ b) :
    k ∈ src.map Prod.fst ∧ pIdx src.length k = pIdx src.length b.headI := by
  have hpend := hInv.pending b hb hbne
  rw [hpend] at hk
  exact (srcBucket_mem_iff src _ k).mp hk

/-! ### Builder invariant: preservation through step 3 -/

theorem inv_step3_step (src : List Entry) (hnd : (src.map Prod.fst).Nodup)
    (b : List Key) (rest : List (List Key)) (G : List Int) (V : List (Option Entry))
    (chk : Nat) (hInv : Inv src (b :: rest) G V chk) (hlen : 1 < b.length)
    (seed : Nat) (slots : List Nat) (c : Nat)
    (hfs : findSeed src.length V b = .ok (seed, slots, c)) :
    Inv src rest (G.set (pIdx src.length b.headI) (seed : Int))
      (fillSlots src V b slots) (chk + slots.length) := by
  have hbne : b ≠ [] := by intro h; rw [h] at hlen; simp at hlen
  have hhead : b.headI ∈ b := headI_mem hbne
  obtain ⟨hheadmem, -⟩ := mem_bucket_facts src _ G V chk hInv b
    (List.mem_cons_self _ _) hbne b.headI hhead
  have hn : 0 < src.length := src_length_pos_of_mem hheadmem
  have hpend : b = srcBucket src (pIdx src.length b.headI) :=
    hInv.pending b (List.mem_cons_self _ _) hbne
  have hbnd : b.Nodup := hpend ▸ List.Nodup.filter _ hnd
  set n := src.length with hn_def
  set p := pIdx n b.headI with hp_def
  have hp : p < n := pIdx_lt n hn b.headI
  obtain ⟨hseed1, hgood, hslots, -, -⟩ :=
    findSeedAux_ok n V b (FNV1MASK - 1) 1 seed slots c hfs
  have hslot_len : slots.length = b.length := by rw [hslots, List.length_map]
  have hfree : ∀ sl ∈ slots, V[sl]? = some none := by
    intro sl hsl
    have hlt : sl < n := by
      rw [hslots] at hsl
      obtain ⟨k, -, hk⟩ := List.mem_map.mp hsl
      rw [← hk]
      exact Nat.mod_lt _ hn
    exact getD_none_eq V sl (hInv.lenV ▸ hlt) (hgood.2 sl (hslots ▸ hsl))
  have hslots_nd : slots.Nodup := hslots ▸ hgood.1
  have hpd := List.pairwise_cons.mp hInv.pdist
  have hps := List.pairwise_cons.mp hInv.psorted
  -- facts about the keys of b
  have hkey_facts : ∀ k ∈ b, k ∈ src.map Prod.fst ∧ pIdx n k = p :=
    fun k hk => mem_bucket_facts src _ G V chk hInv b (List.mem_cons_self _ _) hbne k hk
  -- primary index of any other pending bucket differs from p
  have hrest_ne : ∀ b' ∈ rest, b' ≠ [] → pIdx n b'.headI ≠ p :=
    fun b' hb' hb'ne => fun h => (hpd.1 b' hb' hbne hb'ne) h.symm
  -- new entries come from the zip of b and slots
  have hnew : ∀ (i : Nat) (e : Entry),
      (fillSlots src V b slots)[i]? = some (some e) →
      V[i]? = some (some e) ∨
        ∃ k, k ∈ b ∧ (k, i) ∈ b.zip slots ∧ e = (k, lookupD src k) := by
    intro i e h
    rcases fillSlots_inv src b slots V i e h with h' | ⟨k, s, hz, hi, he⟩
    · exact Or.inl h'
    · exact Or.inr ⟨k, (List.of_mem_zip hz).1, hi ▸ hz, he⟩
  constructor
  case lenG => rw [List.length_set]; exact hInv.lenG
  case lenV => rw [fillSlots_length]; exact hInv.lenV
  case pending => exact fun b' hb' => hInv.pending b' (List.mem_cons_of_mem _ hb')
  case pdist => exact hpd.2
  case psorted => exact hps.2
  case disj =>
    intro i e he b' hb' hmem
    have hb'ne : b' ≠ [] := List.ne_nil_of_mem hmem
    rcases hnew i e he with h' | ⟨k, hkb, -, hek⟩
    · exact hInv.disj i e h' b' (List.mem_cons_of_mem _ hb') hmem
    · have h1 := (hkey_facts k hkb).2
      have h2 := (mem_bucket_facts src _ G V chk hInv b' (List.mem_cons_of_mem _ hb')
        hb'ne e.1 hmem).2
      have he1 : e.1 = k := by rw [hek]
      exact hrest_ne b' hb' hb'ne (by rw [← h2, he1]; exact h1)
  case placedOK =>
    intro i e he
    rcases hnew i e he with h' | ⟨k, hkb, hz, hek⟩
    · obtain ⟨hesrc, hslot⟩ := hInv.placedOK i e h'
      refine ⟨hesrc, ?_⟩
      have hne : pIdx n e.1 ≠ p :=
        placed_primary_ne src _ G V chk hInv b (List.mem_cons_self _ _) hbne i e h'
      unfold lookUpSlot at hslot ⊢
      rw [List.getElem?_set, if_neg (fun h => hne h.symm)]
      exact hslot
    · obtain ⟨hkmem, hkp⟩ := hkey_facts k hkb
      refine ⟨hek ▸ lookupD_mem src k hkmem, ?_⟩
      unfold lookUpSlot
      rw [hek]
      simp only
      rw [hkp, List.getElem?_set, if_pos rfl, if_pos (hInv.lenG ▸ hp)]
      simp only [Option.map_some']
      rw [if_neg (not_lt.mpr (Int.natCast_nonneg seed)), Int.toNat_natCast]
      have : (k, i) ∈ b.zip (b.map fun k => hashFNV1 k seed % n) := hslots ▸ hz
      rw [zip_map_self b k i this]
  case gzero =>
    intro p' hp' hyp
    have hne : p' ≠ p := by
      rcases hyp with ⟨b', hb', hb'ne, hpeq⟩ | hempty
      · exact fun h => hrest_ne b' hb' hb'ne (hpeq.trans h)
      · intro h
        rw [h, ← hpend] at hempty
        exact hbne hempty
    rw [List.getElem?_set, if_neg (fun h => hne h.symm)]
    refine hInv.gzero p' hp' ?_
    rcases hyp with ⟨b', hb', hb'ne, hpeq⟩ | hempty
    · exact Or.inl ⟨b', List.mem_cons_of_mem _ hb', hb'ne, hpeq⟩
    · exact Or.inr hempty
  case gsign =>
    intro p' hp' hB hnp
    by_cases hpp : p' = p
    · subst hpp
      constructor
      · intro _
        refine ⟨(seed : Int), ?_, by exact_mod_cast hseed1⟩
        rw [List.getElem?_set, if_pos rfl, if_pos (hInv.lenG ▸ hp)]
      · intro h1
        exfalso
        rw [← hpend] at h1
        omega
    · have hG : (G.set p (seed : Int))[p']? = G[p']? := by
        rw [List.getElem?_set, if_neg (fun h => hpp h.symm)]
      have := hInv.gsign p' hp' hB ?_
      · rw [hG]; exact this
      · intro b' hb' hb'ne
        rcases List.mem_cons.mp hb' with h | h
        · intro hc
          exact hpp (by rw [← hc, h])
        · exact hnp b' h hb'ne
  case chkEq =>
    rw [fillSlots_countP src b slots V hslot_len.symm hslots_nd hfree, ← hInv.chkEq]
  case pkeys =>
    intro i j e e' he he' hij
    rcases hnew i e he with h1 | ⟨k1, hk1, hz1, hek1⟩ <;>
      rcases hnew j e' he' with h2 | ⟨k2, hk2, hz2, hek2⟩
    · exact hInv.pkeys i j e e' h1 h2 hij
    · rw [hek2]
      intro hc
      exact hInv.disj i e h1 b (List.mem_cons_self _ _) (hc ▸ hk2)
    · rw [hek1]
      intro hc
      exact hInv.disj j e' h2 b (List.mem_cons_self _ _) (hc.symm ▸ hk1)
    · rw [hek1, hek2]
      simp only [ne_eq, Prod.mk.injEq]
      intro hc
      exact hij (zip_key_inj b slots k1 i j hbnd hz1 (hc ▸ hz2))

theorem step3_inv (src : List Entry) (hnd : (src.map Prod.fst).Nodup) :
    ∀ (bs : List (List Key)) (G : List Int) (V : List (Option Entry)) (chk coll : Nat)
      (bs' : List (List Key)) (G' : List Int) (V' : List (Option Entry)) (chk' coll' : Nat),
      Inv src bs G V chk →
      step3 src src.length bs G V chk coll = .ok (bs', G', V', chk', coll') →
      Inv src bs' G' V' chk' ∧ ∀ b ∈ bs', b.length ≤ 1 := by
  intro bs
  induction bs with
  | nil =>
    intro G V chk coll bs' G' V' chk' coll' hInv hstep
    simp only [step3, Except.ok.injEq, Prod.mk.injEq] at hstep
    obtain ⟨rfl, rfl, rfl, rfl, rfl⟩ := hstep
    exact ⟨hInv, by simp⟩
  | cons b rest ih =>
    intro G V chk coll bs' G' V' chk' coll' hInv hstep
    rw [step3] at hstep
    by_cases hblen : 1 < b.length
    · rw [if_pos hblen] at hstep
      cases hfs : findSeed src.length V b with
      | error e => rw [hfs] at hstep; exact absurd hstep (by simp)
      | ok r =>
        obtain ⟨seed, slots, c⟩ := r
        rw [hfs] at hstep
        exact ih _ _ _ _ _ _ _ _ _
          (inv_step3_step src hnd b rest G V chk hInv hblen seed slots c hfs) hstep
    · rw [if_neg hblen] at hstep
      simp only [Except.ok.injEq, Prod.mk.injEq] at hstep
      obtain ⟨rfl, rfl, rfl, rfl, rfl⟩ := hstep
      refine ⟨hInv, ?_⟩
      intro b' hb'
      rcases List.mem_cons.mp hb' with h | h
      · rw [h]; omega
      · have := (List.pairwise_cons.mp hInv.psorted).1 b' h
        omega

theorem inv_step4_step (src : List Entry) (hnd : (src.map Prod.fst).Nodup)
    (b : List Key) (rest : List (List Key)) (k : Nat) (G : List Int)
    (V : List (Option Entry)) (chk : Nat) (hInv : Inv src (b :: rest) G V chk)
    (hbne : b ≠ []) (hsmall : b.length ≤ 1) (slot : Nat)
    (hffs : findFreeSlot V k = some slot) :
    Inv src rest (G.set (pIdx src.length b.headI) (-(slot : Int) - 1))
      (V.set slot (some (b.headI, lookupD src b.headI))) (chk + 1) := by
  obtain ⟨hfree, -⟩ := findFreeSlot_spec V k slot hffs
  have hslotlt : slot < V.length := by
    by_contra hc
    rw [List.getElem?_eq_none (by omega)] at hfree
    exact absurd hfree (by simp)
  have hslotn : slot < src.length := hInv.lenV ▸ hslotlt
  have hhead : b.headI ∈ b := headI_mem hbne
  obtain ⟨hheadmem, -⟩ := mem_bucket_facts src _ G V chk hInv b
    (List.mem_cons_self _ _) hbne b.headI hhead
  have hn : 0 < src.length := src_length_pos_of_mem hheadmem
  have hpend : b = srcBucket src (pIdx src.length b.headI) :=
    hInv.pending b (List.mem_cons_self _ _) hbne
  set n := src.length with hn_def
  set p := pIdx n b.headI with hp_def
  have hp : p < n := pIdx_lt n hn b.headI
  have hpd := List.pairwise_cons.mp hInv.pdist
  have hps := List.pairwise_cons.mp hInv.psorted
  have hrest_ne : ∀ b' ∈ rest, b' ≠ [] → pIdx n b'.headI ≠ p :=
    fun b' hb' hb'ne => fun h => (hpd.1 b' hb' hbne hb'ne) h.symm
  have hblen1 : b.length = 1 := by
    have : 0 < b.length := List.length_pos.mpr hbne
    omega
  -- analysing an entry of the updated V
  have hnew : ∀ (i : Nat) (e : Entry),
      (V.set slot (some (b.headI, lookupD src b.headI)))[i]? = some (some e) →
      (V[i]? = some (some e) ∧ i ≠ slot) ∨
        (i = slot ∧ e = (b.headI, lookupD src b.headI)) := by
    intro i e h
    rw [List.getElem?_set] at h
    by_cases his : slot = i
    · rw [if_pos his, if_pos hslotlt] at h
      simp only [Option.some.injEq] at h
      exact Or.inr ⟨his.symm, h.symm⟩
    · rw [if_neg his] at h
      exact Or.inl ⟨h, fun hc => his hc.symm⟩
  constructor
  case lenG => rw [List.length_set]; exact hInv.lenG
  case lenV => rw [List.length_set]; exact hInv.lenV
  case pending => exact fun b' hb' => hInv.pending b' (List.mem_cons_of_mem _ hb')
  case pdist => exact hpd.2
  case psorted => exact hps.2
  case disj =>
    intro i e he b' hb' hmem
    have hb'ne : b' ≠ [] := List.ne_nil_of_mem hmem
    rcases hnew i e he with ⟨h', -⟩ | ⟨-, hek⟩
    · exact hInv.disj i e h' b' (List.mem_cons_of_mem _ hb') hmem
    · have h2 := (mem_bucket_facts src _ G V chk hInv b' (List.mem_cons_of_mem _ hb')
        hb'ne e.1 hmem).2
      have he1 : e.1 = b.headI := by rw [hek]
      exact hrest_ne b' hb' hb'ne (by rw [← h2, he1])
  case placedOK =>
    intro i e he
    rcases hnew i e he with ⟨h', -⟩ | ⟨hi, hek⟩
    · obtain ⟨hesrc, hslot'⟩ := hInv.placedOK i e h'
      refine ⟨hesrc, ?_⟩
      have hne : pIdx n e.1 ≠ p :=
        placed_primary_ne src _ G V chk hInv b (List.mem_cons_self _ _) hbne i e h'
      unfold lookUpSlot at hslot' ⊢
      rw [List.getElem?_set, if_neg (fun h => hne h.symm)]
      exact hslot'
    · refine ⟨hek ▸ lookupD_mem src b.headI hheadmem, ?_⟩
      unfold lookUpSlot
      have he1 : e.1 = b.headI := by rw [hek]
      rw [he1, List.getElem?_set, if_pos rfl, if_pos (hInv.lenG ▸ hp)]
      simp only [Option.map_some']
      rw [if_pos (by omega), hi]
      congr 1
      omega
  case gzero =>
    intro p' hp' hyp
    have hne : p' ≠ p := by
      rcases hyp with ⟨b', hb', hb'ne, hpeq⟩ | hempty
      · exact fun h => hrest_ne b' hb' hb'ne (hpeq.trans h)
      · intro h
        rw [h, ← hpend] at hempty
        exact hbne hempty
    rw [List.getElem?_set, if_neg (fun h => hne h.symm)]
    refine hInv.gzero p' hp' ?_
    rcases hyp with ⟨b', hb', hb'ne, hpeq⟩ | hempty
    · exact Or.inl ⟨b', List.mem_cons_of_mem _ hb', hb'ne, hpeq⟩
    · exact Or.inr hempty
  case gsign =>
    intro p' hp' hB hnp
    by_cases hpp : p' = p
    · subst hpp
      constructor
      · intro h2
        exfalso
        rw [← hpend] at h2
        omega
      · intro _
        refine ⟨-(slot : Int) - 1, ?_, by omega, by omega⟩
        rw [List.getElem?_set, if_pos rfl, if_pos (hInv.lenG ▸ hp)]
    · have hG : (G.set p (-(slot : Int) - 1))[p']? = G[p']? := by
        rw [List.getElem?_set, if_neg (fun h => hpp h.symm)]
      have := hInv.gsign p' hp' hB ?_
      · rw [hG]; exact this
      · intro b' hb' hb'ne
        rcases List.mem_cons.mp hb' with h | h
        · intro hc
          exact hpp (by rw [← hc, h])
        · exact hnp b' h hb'ne
  case chkEq =>
    rw [countP_set_some V slot _ hfree, ← hInv.chkEq]
  case pkeys =>
    intro i j e e' he he' hij
    rcases hnew i e he with ⟨h1, hi1⟩ | ⟨hi1, hek1⟩ <;>
      rcases hnew j e' he' with ⟨h2, hj2⟩ | ⟨hj2, hek2⟩
    · exact hInv.pkeys i j e e' h1 h2 hij
    · rw [hek2]
      intro hc
      exact hInv.disj i e h1 b (List.mem_cons_self _ _) (hc ▸ hhead)
    · rw [hek1]
      intro hc
      exact hInv.disj j e' h2 b (List.mem_cons_self _ _) (hc.symm ▸ hhead)
    · exact absurd (hi1.trans hj2.symm) hij

theorem step4_inv (src : List Entry) (hnd : (src.map Prod.fst).Nodup) :
    ∀ (bs : List (List Key)) (k : Nat) (G : List Int) (V : List (Option Entry))
      (chk : Nat) (G' : List Int) (V' : List (Option Entry)) (chk' : Nat),
      Inv src bs G V chk → (∀ b ∈ bs, b.length ≤ 1) →
      step4 src src.length bs k G V chk = .ok (G', V', chk') →
      Inv src [] G' V' chk' := by
  intro bs
  induction bs with
  | nil =>
    intro k G V chk G' V' chk' hInv _ hstep
    simp only [step4, Except.ok.injEq, Prod.mk.injEq] at hstep
    obtain ⟨rfl, rfl, rfl⟩ := hstep
    exact hInv
  | cons b rest ih =>
    intro k G V chk G' V' chk' hInv hsmall hstep
    rw [step4] at hstep
    by_cases hblen : 0 < b.length
    · rw [if_pos hblen] at hstep
      cases hffs : findFreeSlot V k with
      | none => rw [hffs] at hstep; exact absurd hstep (by simp)
      | some slot =>
        rw [hffs] at hstep
        exact ih _ _ _ _ _ _ _
          (inv_step4_step src hnd b rest k G V chk hInv
            (by intro h; rw [h] at hblen; simp at hblen)
            (hsmall b (List.mem_cons_self _ _)) slot hffs)
          (fun b' hb' => hsmall b' (List.mem_cons_of_mem _ hb')) hstep
    · rw [if_neg hblen] at hstep
      simp only [Except.ok.injEq, Prod.mk.injEq] at hstep
      obtain ⟨rfl, rfl, rfl⟩ := hstep
      have hbnil : b = [] := by
        cases b with
        | nil => rfl
        | cons x t => simp at hblen
      have hps := List.pairwise_cons.mp hInv.psorted
      have hallnil : ∀ b' ∈ b :: rest, b' = [] := by
        intro b' hb'
        rcases List.mem_cons.mp hb' with h | h
        · rw [h, hbnil]
        · have := hps.1 b' h
          rw [hbnil] at this
          simp only [List.length_nil, Nat.le_zero, List.length_eq_zero] at this
          exact this
      exact {
        lenG := hInv.lenG
        lenV := hInv.lenV
        pending := by simp
        pdist := List.Pairwise.nil
        psorted := List.Pairwise.nil
        disj := fun i e he b' hb' => absurd hb' (by simp)
        placedOK := hInv.placedOK
        gzero := fun p' hp' hyp => by
          refine hInv.gzero p' hp' ?_
          rcases hyp with ⟨b', hb', _, _⟩ | hempty
          · exact absurd hb' (by simp)
          · exact Or.inr hempty
        gsign := fun p' hp' hB _ => by
          refine hInv.gsign p' hp' hB ?_
          intro b' hb' hb'ne
          exact absurd (hallnil b' hb') hb'ne
        chkEq := hInv.chkEq
        pkeys := hInv.pkeys }

/-! ### Builder invariant: the initial state -/

theorem foldl_appendAt_getElem (n : Nat) (hn : 0 < n) :
    ∀ (keys : List Key) (B : List (List Key)) (p : Nat), B.length = n →
      (keys.foldl (fun bs k => appendAt bs (pIdx n k) k) B)[p]? =
        (B[p]?).map (fun l => l ++ keys.filter (fun k => pIdx n k == p)) := by
  intro keys
  induction keys with
  | nil =>
    intro B p hB
    simp [List.filter]
  | cons k ks ih =>
    intro B p hB
    rw [List.foldl_cons]
    have hlen' : (appendAt B (pIdx n k) k).length = n := by
      rw [appendAt, List.length_set]; exact hB
    rw [ih (appendAt B (pIdx n k) k) p hlen']
    by_cases hp : pIdx n k = p
    · have hplt : p < B.length := hB ▸ (hp ▸ pIdx_lt n hn k)
      have hBp : B[p]? = some (B.getD p []) := by
        rw [List.getD_eq_getElem?_getD, List.getElem?_eq_getElem hplt]
        simp
      have hset : (appendAt B (pIdx n k) k)[p]? = some (B.getD p [] ++ [k]) := by
        rw [appendAt, hp, List.getElem?_set, if_pos rfl, if_pos hplt]
      rw [hset, hBp]
      have hfil : (k :: ks).filter (fun k => pIdx n k == p) =
          k :: ks.filter (fun k => pIdx n k == p) := by
        rw [List.filter_cons, if_pos (by simp [hp])]
      rw [hfil]
      simp [List.append_assoc]
    · have hset : (appendAt B (pIdx n k) k)[p]? = B[p]? := by
        rw [appendAt, List.getElem?_set, if_neg hp]
      rw [hset]
      have hfil : (k :: ks).filter (fun k => pIdx n k == p) =
          ks.filter (fun k => pIdx n k == p) := by
        rw [List.filter_cons, if_neg (by simp [hp])]
      rw [hfil]

theorem bucketsInit_getElem (keys : List Key) (n p : Nat) (hn : 0 < n) (hp : p < n) :
    (bucketsInit keys n)[p]? = some (keys.filter (fun k => pIdx n k == p)) := by
  unfold bucketsInit
  rw [foldl_appendAt_getElem n hn keys _ p (List.length_replicate _ _)]
  rw [List.getElem?_replicate, if_pos hp]
  simp

theorem foldl_appendAt_length (n : Nat) :
    ∀ (keys : List Key) (B : List (List Key)),
      (keys.foldl (fun bs k => appendAt bs (pIdx n k) k) B).length = B.length := by
  intro keys
  induction keys with
  | nil => intro B; rfl
  | cons k ks ih =>
    intro B
    rw [List.foldl_cons, ih, appendAt, List.length_set]

theorem bucketsInit_length (keys : List Key) (n : Nat) :
    (bucketsInit keys n).length = n := by
  unfold bucketsInit
  rw [foldl_appendAt_length, List.length_replicate]

theorem mem_bucketsInit (keys : List Key) (n : Nat) (hn : 0 < n) (b : List Key)
    (hb : b ∈ bucketsInit keys n) :
    ∃ p, p < n ∧ b = keys.filter (fun k => pIdx n k == p) := by
  obtain ⟨i, hi⟩ := List.mem_iff_getElem?.mp hb
  have hilt : i < n := by
    by_contra hc
    rw [List.getElem?_eq_none (by rw [bucketsInit_length]; omega)] at hi
    exact absurd hi (by simp)
  refine ⟨i, hilt, ?_⟩
  rw [bucketsInit_getElem keys n i hn hilt] at hi
  simp only [Option.some.injEq] at hi
  exact hi.symm

theorem filter_headI_pIdx (keys : List Key) (n p : Nat)
    (hne : keys.filter (fun k => pIdx n k == p) ≠ []) :
    pIdx n (keys.filter (fun k => pIdx n k == p)).headI = p := by
  have := headI_mem hne
  have := List.mem_filter.mp this
  simpa using this.2

theorem bucketsInit_pairwise (keys : List Key) (n : Nat) (hn : 0 < n) :
    (bucketsInit keys n).Pairwise
      (fun a b => a ≠ [] → b ≠ [] → pIdx n a.headI ≠ pIdx n b.headI) := by
  rw [List.pairwise_iff_getElem]
  intro i j hi hj hij
  rw [bucketsInit_length] at hi hj
  intro hane hbne
  have hgi : (bucketsInit keys n)[i]? = some (keys.filter (fun k => pIdx n k == i)) :=
    bucketsInit_getElem keys n i hn hi
  have hgj : (bucketsInit keys n)[j]? = some (keys.filter (fun k => pIdx n k == j)) :=
    bucketsInit_getElem keys n j hn hj
  rw [List.getElem?_eq_getElem (by rw [bucketsInit_length]; exact hi)] at hgi
  rw [List.getElem?_eq_getElem (by rw [bucketsInit_length]; exact hj)] at hgj
  simp only [Option.some.injEq] at hgi hgj
  rw [hgi, hgj]
  rw [hgi] at hane
  rw [hgj] at hbne
  rw [filter_headI_pIdx keys n i hane, filter_headI_pIdx keys n j hbne]
  omega

theorem replicate_no_entry (n i : Nat) (e : Entry)
    (h : (List.replicate n (none : Option Entry))[i]? = some (some e)) : False := by
  rw [List.getElem?_replicate] at h
  by_cases hi : i < n
  · rw [if_pos hi] at h
    simp at h
  · rw [if_neg hi] at h
    simp at h

theorem inv_init (src : List Entry) (hn : 0 < src.length)
    (hnd : (src.map Prod.fst).Nodup) :
    Inv src
      (List.insertionSort (fun a b : List Key => b.length ≤ a.length)
        (bucketsInit (src.map Prod.fst) src.length))
      (List.replicate src.length 0) (List.replicate src.length none) 0 := by
  have hperm := List.perm_insertionSort
    (fun a b : List Key => b.length ≤ a.length)
    (bucketsInit (src.map Prod.fst) src.length)
  constructor
  case lenG => exact List.length_replicate _ _
  case lenV => exact List.length_replicate _ _
  case pending =>
    intro b hb hbne
    obtain ⟨p, hp, hbp⟩ := mem_bucketsInit (src.map Prod.fst) src.length hn b
      (hperm.mem_iff.mp hb)
    have : pIdx src.length b.headI = p := by
      rw [hbp]
      exact filter_headI_pIdx _ _ _ (hbp ▸ hbne)
    rw [this, hbp]
    rfl
  case pdist =>
    refine (List.Perm.pairwise_iff ?_ hperm).mpr
      (bucketsInit_pairwise (src.map Prod.fst) src.length hn)
    intro x y h hy hx
    exact (h hx hy).symm
  case psorted =>
    haveI : IsTotal (List Key) (fun a b : List Key => b.length ≤ a.length) :=
      ⟨fun a b => Nat.le_total b.length a.length⟩
    haveI : IsTrans (List Key) (fun a b : List Key => b.length ≤ a.length) :=
      ⟨fun a b c h1 h2 => le_trans h2 h1⟩
    exact List.sorted_insertionSort _ _
  case disj =>
    intro i e he
    exact absurd he (fun h => replicate_no_entry _ _ _ h)
  case placedOK =>
    intro i e he
    exact absurd he (fun h => replicate_no_entry _ _ _ h)
  case gzero =>
    intro p hp _
    rw [List.getElem?_replicate, if_pos hp]
  case gsign =>
    intro p hp hB hnp
    exfalso
    have hmem : srcBucket src p ∈ bucketsInit (src.map Prod.fst) src.length := by
      apply List.mem_iff_getElem?.mpr
      exact ⟨p, bucketsInit_getElem (src.map Prod.fst) src.length p hn hp⟩
    have hmem' := hperm.mem_iff.mpr hmem
    have hpeq : pIdx src.length (srcBucket src p).headI = p :=
      filter_headI_pIdx (src.map Prod.fst) src.length p hB
    exact hnp (srcBucket src p) hmem' hB hpeq
  case chkEq =>
    rw [List.countP_replicate]
    simp
  case pkeys =>
    intro i j e e' he
    exact absurd he (fun h => replicate_no_entry _ _ _ h)

/-! ### Builder invariant: final assembly -/

theorem map_getD_getElem? (V : List (Option Entry)) (hall : ∀ o ∈ V, o.isSome)
    (i : Nat) (e : Entry) :
    (V.map (fun o => o.getD ([], [])))[i]? = some e ↔ V[i]? = some (some e) := by
  rw [List.getElem?_map]
  cases hv : V[i]? with
  | none => simp
  | some o =>
    have hs : o.isSome := hall o (List.getElem?_mem hv)
    obtain ⟨e', rfl⟩ := Option.isSome_iff_exists.mp hs
    simp

theorem build_final (src : List Entry) (hn : 0 < src.length)
    (hnd : (src.map Prod.fst).Nodup) (G : List Int) (Vout : List Entry) (coll : Nat)
    (h : createMinimalPerfectHash src = .ok (G, Vout, coll)) :
    ∃ V : List (Option Entry),
      Inv src [] G V src.length ∧
      Vout.length = src.length ∧
      (∀ (i : Nat) (e : Entry), Vout[i]? = some e ↔ V[i]? = some (some e)) ∧
      Vout.Perm src := by
  rw [createMinimalPerfectHash] at h
  cases h3 : step3 src src.length
      (List.insertionSort (fun a b : List Key => b.length ≤ a.length)
        (bucketsInit (src.map Prod.fst) src.length))
      (List.replicate src.length 0) (List.replicate src.length none) 0 0 with
  | error e => rw [h3] at h; exact absurd h (by simp)
  | ok r3 =>
    obtain ⟨bs', G1, V1, chk1, coll1⟩ := r3
    rw [h3] at h
    simp only at h
    cases h4 : step4 src src.length bs' 0 G1 V1 chk1 with
    | error e => rw [h4] at h; exact absurd h (by simp)
    | ok r4 =>
      obtain ⟨G2, V2, chk2⟩ := r4
      rw [h4] at h
      simp only at h
      by_cases hchk : src.length = chk2
      · rw [if_pos hchk] at h
        simp only [Except.ok.injEq, Prod.mk.injEq] at h
        obtain ⟨rfl, rfl, rfl⟩ := h
        obtain ⟨hInv1, hsmall⟩ := step3_inv src hnd _ _ _ _ _ _ _ _ _ _
          (inv_init src hn hnd) h3
        have hInv2 := step4_inv src hnd bs' 0 G1 V1 chk1 G2 V2 chk2 hInv1 hsmall h4
        rw [← hchk] at hInv2
        have hall : ∀ o ∈ V2, o.isSome := by
          apply List.countP_eq_length.mp
          rw [← hInv2.chkEq, hInv2.lenV]
        refine ⟨V2, hInv2, ?_, ?_, ?_⟩
        · rw [List.length_map, hInv2.lenV]
        · exact fun i e => map_getD_getElem? V2 hall i e
        · -- the output table is a permutation of the source mapping
          have hsub : (V2.map (fun o => o.getD ([], []))) ⊆ src := by
            intro e he
            obtain ⟨i, hi⟩ := List.mem_iff_getElem?.mp he
            exact (hInv2.placedOK i e ((map_getD_getElem? V2 hall i e).mp hi)).1
          have hndout : (V2.map (fun o => o.getD ([], []))).Nodup := by
            rw [List.Nodup, List.pairwise_iff_getElem]
            intro i j hi hj hij
            have hgi := List.getElem?_eq_getElem hi
            have hgj := List.getElem?_eq_getElem hj
            have h1 := (map_getD_getElem? V2 hall i _).mp hgi
            have h2 := (map_getD_getElem? V2 hall j _).mp hgj
            have := hInv2.pkeys i j _ _ h1 h2 (by omega)
            intro hc
            rw [hc] at this
            exact this rfl
          have hsp := List.Nodup.subperm hndout hsub
          exact hsp.perm_of_length_le (by rw [List.length_map, hInv2.lenV])
      · rw [if_neg hchk] at h
        exact absurd h (by simp)

theorem lookUp_ok_of (n : Nat) (G : List Int) (V : List Entry) (key : Key)
    (i : Nat) (val : Value) (h1 : lookUpSlot n G key = some i)
    (h2 : V[i]? = some (key, val)) : lookUp n G V key = .ok val := by
  unfold lookUpSlot pIdx at h1
  unfold lookUp
  cases hg : G[hashFNV1 key FNV1OFFSET % n]? with
  | none => rw [hg] at h1; exact absurd h1 (by simp)
  | some g =>
    rw [hg] at h1
    simp only [Option.map_some', Option.some.injEq] at h1
    simp only [h1, h2]
    simp

/-! ### Claim theorems -/

/-- C1: for every mapping of `n ≥ 1` unique keys to bitmaps and every key
present in it, looking up that key in the tables produced by a successful
build returns exactly the bitmap the mapping associates with it. -/
theorem claim1_lookup_correct (src : List Entry) (hn : 1 ≤ src.length)
    (hnd : (src.map Prod.fst).Nodup) (G : List Int) (V : List Entry) (coll : Nat)
    (hbuild : createMinimalPerfectHash src = .ok (G, V, coll))
    (key : Key) (val : Value) (hmem : (key, val) ∈ src) :
    lookUp src.length G V key = .ok val := by
  obtain ⟨W, hInv, hlen, hiff, hperm⟩ := build_final src hn hnd G V coll hbuild
  have hVmem : (key, val) ∈ V := hperm.mem_iff.mpr hmem
  obtain ⟨i, hi⟩ := List.mem_iff_getElem?.mp hVmem
  have hW := (hiff i _).mp hi
  obtain ⟨-, hslot⟩ := hInv.placedOK i (key, val) hW
  exact lookUp_ok_of src.length G V key i val hslot hi

theorem claim1_lookup_correct_witness :
    lookUp 2 [-1, -2] [([0, 0, 0x41], [0xAA, 0xBB]), ([0, 0xFF, 0xFD], [1, 2])]
      [0, 0, 0x41] = .ok [0xAA, 0xBB] := by
  have hb : createMinimalPerfectHash
      [([0, 0, 0x41], [0xAA, 0xBB]), ([0, 0xFF, 0xFD], [1, 2])] =
      .ok ([-1, -2], [([0, 0, 0x41], [0xAA, 0xBB]), ([0, 0xFF, 0xFD], [1, 2])], 0) := rfl
  exact claim1_lookup_correct _ (by decide) (by decide) _ _ _ hb
    [0, 0, 0x41] [0xAA, 0xBB] (by decide)

/-- C2: a successful build on `n ≥ 1` unique keys returns `G` and `V` of
length `n`, and `V` is a permutation of the input mapping: every slot
holds exactly one of its (key, value) pairs, no slot is empty and no key
is omitted. -/
theorem claim2_perfection (src : List Entry) (hn : 1 ≤ src.length)
    (hnd : (src.map Prod.fst).Nodup) (G : List Int) (V : List Entry) (coll : Nat)
    (hbuild : createMinimalPerfectHash src = .ok (G, V, coll)) :
    G.length = src.length ∧ V.length = src.length ∧ V.Perm src := by
  obtain ⟨W, hInv, hlen, hiff, hperm⟩ := build_final src hn hnd G V coll hbuild
  exact ⟨hInv.lenG, hlen, hperm⟩

theorem claim2_perfection_witness :
    ([-1, -2] : List Int).length =
        ([([0, 0, 0x41], [0xAA, 0xBB]), ([0, 0xFF, 0xFD], [1, 2])] : List Entry).length ∧
      ([([0, 0, 0x41], [0xAA, 0xBB]), ([0, 0xFF, 0xFD], [1, 2])] : List Entry).length =
        ([([0, 0, 0x41], [0xAA, 0xBB]), ([0, 0xFF, 0xFD], [1, 2])] : List Entry).length ∧
      ([([0, 0, 0x41], [0xAA, 0xBB]), ([0, 0xFF, 0xFD], [1, 2])] : List Entry).Perm
        [([0, 0, 0x41], [0xAA, 0xBB]), ([0, 0xFF, 0xFD], [1, 2])] := by
  have hb : createMinimalPerfectHash
      [([0, 0, 0x41], [0xAA, 0xBB]), ([0, 0xFF, 0xFD], [1, 2])] =
      .ok ([-1, -2], [([0, 0, 0x41], [0xAA, 0xBB]), ([0, 0xFF, 0xFD], [1, 2])], 0) := rfl
  exact claim2_perfection _ (by decide) (by decide) _ _ _ hb

/-- C4: for a bucket of at least two keys, the seed search tries seeds
1, 2, 3, ... in order and returns the smallest seed whose slots are
pairwise distinct and free, counting one collision per rejected seed; if
no seed in `[1, FNV1MASK]` works, the search and with it the whole
step-3 bucket processing fail with the seed-exhaustion error. -/
theorem claim4_seed_search (n : Nat) (V : List (Option Entry)) (bucket : List Key)
    (hb : 2 ≤ bucket.length) :
    (∀ (s : Nat) (sl : List Nat) (c : Nat), findSeed n V bucket = .ok (s, sl, c) →
      1 ≤ s ∧ goodSeed n V bucket s ∧
      (∀ t, 1 ≤ t → t < s → ¬ goodSeed n V bucket t) ∧ c = s - 1 ∧
      ∀ (src : List Entry) (rest : List (List Key)) (G : List Int) (chk coll : Nat),
        step3 src n (bucket :: rest) G V chk coll =
          step3 src n rest (G.set (pIdx n bucket.headI) (s : Int))
            (fillSlots src V bucket sl) (chk + sl.length) (coll + c)) ∧
    (∀ e, findSeed n V bucket = .error e →
      (∀ t, 1 ≤ t → t ≤ FNV1MASK → ¬ goodSeed n V bucket t) ∧
      ∀ (src : List Entry) (rest : List (List Key)) (G : List Int) (chk coll : Nat),
        step3 src n (bucket :: rest) G V chk coll = .error e) := by
  constructor
  · intro s sl c h
    obtain ⟨h1, h2, -, h4, h5⟩ := findSeedAux_ok n V bucket (FNV1MASK - 1) 1 s sl c h
    refine ⟨h1, h2, fun t ht1 ht2 => h4 t ht1 ht2, by omega, ?_⟩
    intro src rest G chk coll
    rw [step3, if_pos (by omega : 1 < bucket.length), h]
  · intro e h
    have hmask : FNV1MASK = 0x7fffffff := rfl
    refine ⟨?_, ?_⟩
    · intro t ht1 ht2
      exact findSeedAux_err n V bucket (FNV1MASK - 1) 1 e h t ht1 (by omega)
    · intro src rest G chk coll
      rw [step3, if_pos (by omega : 1 < bucket.length), h]

theorem claim4_seed_search_witness :
    1 ≤ 1 ∧ goodSeed 2 [none, none] [[0, 0, 65], [0, 0, 66]] 1 ∧
      (∀ t, 1 ≤ t → t < 1 → ¬ goodSeed 2 [none, none] [[0, 0, 65], [0, 0, 66]] t) ∧
      0 = 1 - 1 ∧
      ∀ (src : List Entry) (rest : List (List Key)) (G : List Int) (chk coll : Nat),
        step3 src 2 ([[0, 0, 65], [0, 0, 66]] :: rest) G [none, none] chk coll =
          step3 src 2 rest
            (G.set (pIdx 2 (List.headI [[0, 0, 65], [0, 0, 66]])) (1 : Int))
            (fillSlots src [none, none] [[0, 0, 65], [0, 0, 66]] [0, 1])
            (chk + [0, 1].length) (coll + 0) :=
  (claim4_seed_search 2 [none, none] [[0, 0, 65], [0, 0, 66]] (by decide)).1
    1 [0, 1] 0 rfl

/-- C5: `lookUp` returns a bitmap only when the stored key at the slot it
resolves to equals the queried key exactly (and the bitmap is the one
stored with that key); any stored-key mismatch raises `KeyError`, so a
key outside the mapping is never silently given another key's bitmap. -/
theorem claim5_miss_safety (nKeys : Nat) (G : List Int) (V : List Entry)
    (key : Key) (val : Value) (h : lookUp nKeys G V key = .ok val) :
    ∃ i : Nat, V[i]? = some (key, val) := by
  rw [lookUp_eq_slot] at h
  cases hs : lookUpSlot nKeys G key with
  | none => rw [hs] at h; exact absurd h (by simp)
  | some i =>
    rw [hs] at h
    simp only at h
    cases hV : V[i]? with
    | none => rw [hV] at h; exact absurd h (by simp)
    | some entry =>
      rw [hV] at h
      simp only at h
      by_cases hk : entry.1 = key
      · rw [if_pos hk] at h
        simp only [Except.ok.injEq] at h
        refine ⟨i, ?_⟩
        rw [hV, ← h, ← hk]
      · rw [if_neg hk] at h
        exact absurd h (by simp)

theorem claim5_miss_safety_witness :
    ∃ i : Nat, ([([0, 0, 0x41], [7])] : List Entry)[i]? = some ([0, 0, 0x41], [7]) := by
  have hl : lookUp 1 [-1] [([0, 0, 0x41], [7])] [0, 0, 0x41] = .ok [7] := rfl
  exact claim5_miss_safety 1 [-1] [([0, 0, 0x41], [7])] [0, 0, 0x41] [7] hl

/-- C7 counterexample: on the empty byte sequence with seed 0 the hash
returns the default offset `0x811c9dc5`, which exceeds `0x7FFFFFFF`, so
the claimed bound does not hold for the empty sequence. -/
theorem claim7_counterexample : ¬ (hashFNV1 [] 0 ≤ FNV1MASK) := by decide

/-- C7 (amended): for every non-empty byte sequence (bytes below 256) and
every seed, the hash result lies in `[0, 0x7FFFFFFF]`; the empty sequence
instead returns the (normalised) seed itself, which can exceed the
bound. -/
theorem claim7_hash_range (value : List Nat) (seed : Nat) (hne : value ≠ [])
    (hb : ∀ b ∈ value, b < 256) : hashFNV1 value seed ≤ FNV1MASK := by
  have h := foldl_hashStep_lt value (if seed = 0 then FNV1OFFSET else seed) hne hb
  unfold hashFNV1
  have hmask : FNV1MASK = 0x7fffffff := rfl
  omega

theorem claim7_hash_range_witness :
    (([0x41] : List Nat) ≠ [] ∧ ∀ b ∈ ([0x41] : List Nat), b < 256) ∧
      hashFNV1 [0x41] 0 ≤ FNV1MASK :=
  ⟨⟨by decide, by decide⟩, claim7_hash_range [0x41] 0 (by decide) (by decide)⟩

/-- C8: the hash primitive is a pure function (equal inputs give equal
results) and a caller-supplied seed of exactly 0 is treated as the
default offset `0x811c9dc5`, never as a literal 0. -/
theorem claim8_determinism (value : List Nat) (seed : Nat) :
    hashFNV1 value seed = hashFNV1 value seed ∧
      hashFNV1 value 0 = hashFNV1 value FNV1OFFSET := by
  refine ⟨rfl, ?_⟩
  unfold hashFNV1 FNV1OFFSET
  norm_num

/-- C9: after a successful build the sign of each `G` entry classifies
its bucket exactly — positive for buckets of two or more keys (the
chosen seed), negative in `[-n, -1]` for singleton buckets (so the
direct slot `-G[p]-1` is a valid `V` index), zero for empty buckets —
and consequently `lookUp` never raises `IndexError` on the built tables,
whatever key is queried. -/
theorem claim9_g_classification (src : List Entry) (hn : 1 ≤ src.length)
    (hnd : (src.map Prod.fst).Nodup) (G : List Int) (V : List Entry) (coll : Nat)
    (hbuild : createMinimalPerfectHash src = .ok (G, V, coll)) :
    (∀ p, p < src.length →
      ((∃ g, G[p]? = some g ∧ 0 < g) ↔ 2 ≤ (srcBucket src p).length) ∧
      ((∃ g, G[p]? = some g ∧ g < 0) ↔ (srcBucket src p).length = 1) ∧
      (∀ g : Int, G[p]? = some g → g < 0 →
        -(src.length : Int) ≤ g ∧ g ≤ -1 ∧ (-g - 1).toNat < src.length) ∧
      (G[p]? = some 0 ↔ srcBucket src p = [])) ∧
    ∀ key : Key, lookUp src.length G V key ≠ .error .indexError := by
  obtain ⟨W, hInv, hlen, hiff, hperm⟩ := build_final src hn hnd G V coll hbuild
  have F0 : ∀ p, p < src.length → srcBucket src p = [] → G[p]? = some 0 :=
    fun p hp h => hInv.gzero p hp (Or.inr h)
  have F1 : ∀ p, p < src.length → (srcBucket src p).length = 1 →
      ∃ g, G[p]? = some g ∧ -(src.length : Int) ≤ g ∧ g ≤ -1 := by
    intro p hp h
    refine (hInv.gsign p hp ?_ ?_).2 h
    · intro hc; rw [hc] at h; simp at h
    · intro b hb; exact absurd hb (by simp)
  have F2 : ∀ p, p < src.length → 2 ≤ (srcBucket src p).length →
      ∃ g, G[p]? = some g ∧ 1 ≤ g := by
    intro p hp h
    refine (hInv.gsign p hp ?_ ?_).1 h
    · intro hc; rw [hc] at h; simp at h
    · intro b hb; exact absurd hb (by simp)
  have hclass : ∀ p, p < src.length →
      ((∃ g, G[p]? = some g ∧ 0 < g) ↔ 2 ≤ (srcBucket src p).length) ∧
      ((∃ g, G[p]? = some g ∧ g < 0) ↔ (srcBucket src p).length = 1) ∧
      (∀ g : Int, G[p]? = some g → g < 0 →
        -(src.length : Int) ≤ g ∧ g ≤ -1 ∧ (-g - 1).toNat < src.length) ∧
      (G[p]? = some 0 ↔ srcBucket src p = []) := by
    intro p hp
    by_cases h0 : srcBucket src p = []
    · have hg := F0 p hp h0
      refine ⟨⟨?_, ?_⟩, ⟨?_, ?_⟩, ?_, ⟨fun _ => h0, fun _ => hg⟩⟩
      · rintro ⟨g, hg', hpos⟩
        rw [hg] at hg'
        simp only [Option.some.injEq] at hg'
        omega
      · intro h2; rw [h0] at h2; simp at h2
      · rintro ⟨g, hg', hneg⟩
        rw [hg] at hg'
        simp only [Option.some.injEq] at hg'
        omega
      · intro h1; rw [h0] at h1; simp at h1
      · intro g hg' hneg
        rw [hg] at hg'
        simp only [Option.some.injEq] at hg'
        omega
    · by_cases h1 : (srcBucket src p).length = 1
      · obtain ⟨g, hg, hga, hgb⟩ := F1 p hp h1
        refine ⟨⟨?_, ?_⟩, ⟨fun _ => h1, fun _ => ⟨g, hg, by omega⟩⟩, ?_, ⟨?_, ?_⟩⟩
        · rintro ⟨g', hg', hpos⟩
          rw [hg] at hg'
          simp only [Option.some.injEq] at hg'
          omega
        · intro h2; omega
        · intro g' hg' hneg
          rw [hg] at hg'
          simp only [Option.some.injEq] at hg'
          refine ⟨by omega, by omega, by omega⟩
        · intro hz
          rw [hg] at hz
          simp only [Option.some.injEq] at hz
          omega
        · intro hc; exact absurd hc h0
      · have h2 : 2 ≤ (srcBucket src p).length := by
          have : 0 < (srcBucket src p).length := List.length_pos.mpr h0
          omega
        obtain ⟨g, hg, hga⟩ := F2 p hp h2
        refine ⟨⟨fun _ => h2, fun _ => ⟨g, hg, by omega⟩⟩, ⟨?_, fun hc => by omega⟩,
          ?_, ⟨?_, ?_⟩⟩
        · rintro ⟨g', hg', hneg⟩
          rw [hg] at hg'
          simp only [Option.some.injEq] at hg'
          omega
        · intro g' hg' hneg
          rw [hg] at hg'
          simp only [Option.some.injEq] at hg'
          omega
        · intro hz
          rw [hg] at hz
          simp only [Option.some.injEq] at hz
          omega
        · intro hc; exact absurd hc h0
  refine ⟨hclass, ?_⟩
  intro key
  have hq : hashFNV1 key FNV1OFFSET % src.length < src.length :=
    Nat.mod_lt _ (by omega)
  have hqG : hashFNV1 key FNV1OFFSET % src.length < G.length := hInv.lenG ▸ hq
  obtain ⟨g, hgq⟩ : ∃ g, G[hashFNV1 key FNV1OFFSET % src.length]? = some g :=
    ⟨_, List.getElem?_eq_getElem hqG⟩
  have hslot : lookUpSlot src.length G key =
      some (if g < 0 then (-g - 1).toNat
        else hashFNV1 key g.toNat % src.length) := by
    unfold lookUpSlot pIdx
    rw [hgq]
    rfl
  have hv : (if g < 0 then (-g - 1).toNat
      else hashFNV1 key g.toNat % src.length) < V.length := by
    rw [hlen]
    by_cases hneg : g < 0
    · rw [if_pos hneg]
      exact ((hclass _ hq).2.2.1 _ hgq hneg).2.2
    · rw [if_neg hneg]
      exact Nat.mod_lt _ (by omega)
  rw [lookUp_eq_slot, hslot]
  simp only
  rw [List.getElem?_eq_getElem hv]
  simp only
  split <;>
    (intro hc; rw [ite_eq_iff] at hc; rcases hc with ⟨-, hc⟩ | ⟨-, hc⟩ <;> simp at hc)

theorem claim9_g_classification_witness :
    lookUp 2 [-1, -2] [([0, 0, 0x41], [0xAA, 0xBB]), ([0, 0xFF, 0xFD], [1, 2])]
      [9, 9, 9] ≠ .error .indexError := by
  have hb : createMinimalPerfectHash
      [([0, 0, 0x41], [0xAA, 0xBB]), ([0, 0xFF, 0xFD], [1, 2])] =
      .ok ([-1, -2], [([0, 0, 0x41], [0xAA, 0xBB]), ([0, 0xFF, 0xFD], [1, 2])], 0) := rfl
  exact (claim9_g_classification _ (by decide) (by decide) _ _ _ hb).2 [9, 9, 9]

/-! ### Binary codec lemmas -/

theorem toBytesBE_length : ∀ (k m : Nat), (toBytesBE k m).length = k := by
  intro k
  induction k with
  | zero => intro m; rfl
  | succ k ih =>
    intro m
    rw [toBytesBE, List.length_append, ih]
    rfl

theorem fromBytesBE_append_one (xs : List Nat) (b : Nat) :
    fromBytesBE (xs ++ [b]) = fromBytesBE xs * 256 + b := by
  unfold fromBytesBE
  rw [List.foldl_append]
  rfl

theorem fromBytesBE_toBytesBE : ∀ (k m : Nat), m < 256 ^ k →
    fromBytesBE (toBytesBE k m) = m := by
  intro k
  induction k with
  | zero =>
    intro m hm
    rw [pow_zero] at hm
    interval_cases m
    rfl
  | succ k ih =>
    intro m hm
    rw [toBytesBE, fromBytesBE_append_one, ih (m / 256) ?_]
    · omega
    · rw [pow_succ'] at hm
      exact Nat.div_lt_of_lt_mul hm

theorem readBytes_exact (xs rest : List Nat) :
    readBytes xs.length (xs ++ rest) = .ok (xs, rest) := by
  unfold readBytes
  rw [if_pos (by rw [List.length_append]; omega)]
  rw [List.take_left, List.drop_left]

theorem encodeInt32_length (g : Int) : (encodeInt32 g).length = 4 := by
  unfold encodeInt32
  rw [toBytesBE_length]

theorem decode_encodeInt32 (g : Int) (h1 : -(2 ^ 31) ≤ g) (h2 : g < 2 ^ 31) :
    toInt32 (fromBytesBE (encodeInt32 g)) = g := by
  unfold encodeInt32
  by_cases hneg : g < 0
  · rw [if_pos hneg]
    have hm : ((0x100000000 : Int) + g).toNat < 256 ^ 4 := by omega
    rw [fromBytesBE_toBytesBE 4 _ hm]
    unfold toInt32
    rw [if_neg (by omega)]
    omega
  · rw [if_neg hneg]
    have hm : g.toNat < 256 ^ 4 := by omega
    rw [fromBytesBE_toBytesBE 4 _ hm]
    unfold toInt32
    rw [if_pos (by omega)]
    omega

theorem readG_encode : ∀ (G : List Int) (tail : List Nat),
    (∀ g ∈ G, -(2 ^ 31) ≤ g ∧ g < 2 ^ 31) →
    readG G.length ((G.map encodeInt32).flatten ++ tail) = .ok (G, tail) := by
  intro G
  induction G with
  | nil => intro tail _; simp [readG]
  | cons g Gs ih =>
    intro tail hg
    rw [List.map_cons, List.flatten_cons, List.append_assoc]
    show readG (Gs.length + 1) _ = _
    rw [readG]
    have hrb := readBytes_exact (encodeInt32 g) ((Gs.map encodeInt32).flatten ++ tail)
    rw [encodeInt32_length] at hrb
    rw [hrb]
    simp only
    rw [ih tail (fun x hx => hg x (List.mem_cons_of_mem _ hx))]
    simp only
    obtain ⟨ha, hb⟩ := hg g (List.mem_cons_self _ _)
    rw [decode_encodeInt32 g ha hb]

theorem readV_encode (sz : Nat) : ∀ (V : List Entry) (tail : List Nat),
    (∀ v ∈ V, v.1.length = 3 ∧ v.2.length = sz) →
    readV (3 + sz) V.length ((V.map (fun v => v.1 ++ v.2)).flatten ++ tail) =
      .ok (V, tail) := by
  intro V
  induction V with
  | nil => intro tail _; simp [readV]
  | cons v Vs ih =>
    intro tail hv
    obtain ⟨h1, h2⟩ := hv v (List.mem_cons_self _ _)
    rw [List.map_cons, List.flatten_cons, List.append_assoc]
    show readV (3 + sz) (Vs.length + 1) _ = _
    rw [readV]
    have hlen : (v.1 ++ v.2).length = 3 + sz := by
      rw [List.length_append, h1, h2]
    have hrb := readBytes_exact (v.1 ++ v.2) ((Vs.map (fun v => v.1 ++ v.2)).flatten ++ tail)
    rw [hlen] at hrb
    rw [hrb]
    simp only
    rw [ih tail (fun x hx => hv x (List.mem_cons_of_mem _ hx))]
    simp only
    have htake : (v.1 ++ v.2).take 3 = v.1 := by
      rw [← h1, List.take_left]
    have hdrop : (v.1 ++ v.2).drop 3 = v.2 := by
      rw [← h1, List.drop_left]
    rw [htake, hdrop]

theorem length_eq_four (l : List Nat) (h : l.length = 4) :
    ∃ a b c d, l = [a, b, c, d] := by
  match l, h with
  | [a, b, c, d], _ => exact ⟨a, b, c, d, rfl⟩

theorem loadFile_of_parts (w h : Nat) (n4 body : List Nat)
    (hn4 : n4.length = 4) (hw : w ≠ 0) (hh : h ≠ 0) (hnc : fromBytesBE n4 ≠ 0)
    (G : List Int) (r2 : List Nat)
    (hG : readG (fromBytesBE n4) body = .ok (G, r2))
    (V : List Entry) (r3 : List Nat)
    (hV : readV (3 + w * ((h - 1) / 8 + 1)) (fromBytesBE n4) r2 = .ok (V, r3)) :
    loadFile (0xfa :: 0xff :: w :: h :: (n4 ++ body)) =
      .ok (w, h, fromBytesBE n4, G, V, r3) := by
  obtain ⟨a, b, c, d, rfl⟩ := length_eq_four n4 hn4
  unfold loadFile
  rw [if_pos (by rfl)]
  have hdrop2 : (0xfa :: 0xff :: w :: h :: ([a, b, c, d] ++ body)).drop 2 =
      w :: h :: a :: b :: c :: d :: body := rfl
  rw [hdrop2]
  have hrb : readBytes 6 (w :: h :: a :: b :: c :: d :: body) =
      .ok ([w, h, a, b, c, d], body) := by
    unfold readBytes
    rw [if_pos (by simp)]
    rfl
  rw [hrb]
  simp only
  rw [if_neg hw, if_neg hh, if_neg hnc, hG]
  simp only
  rw [hV]

/-- C3: decoding the bytes produced by encoding a well-formed Font
Artifact recovers the same width, height, entry count, `G` contents and
`V` contents; in particular negative `G` entries survive the 32-bit
two's-complement big-endian write and are read back as the same negative
integers. -/
theorem claim3_roundtrip (w h : Nat) (G : List Int) (V : List Entry)
    (hw1 : 1 ≤ w) (hw2 : w ≤ 255) (hh1 : 1 ≤ h) (hh2 : h ≤ 255)
    (hn1 : 1 ≤ G.length) (hn2 : G.length < 2 ^ 32)
    (hlen : V.length = G.length)
    (hg : ∀ g ∈ G, -(2 ^ 31) ≤ g ∧ g < 2 ^ 31)
    (hv : ∀ v ∈ V, v.1.length = 3 ∧ v.2.length = w * ((h - 1) / 8 + 1)) :
    loadFile (createFileBytes w h G V) = .ok (w, h, G.length, G, V, []) := by
  have hw' : toBytesBE 1 w = [w] := by
    unfold toBytesBE toBytesBE
    rw [List.nil_append, Nat.mod_eq_of_lt (by omega)]
  have hh' : toBytesBE 1 h = [h] := by
    unfold toBytesBE toBytesBE
    rw [List.nil_append, Nat.mod_eq_of_lt (by omega)]
  have hn4 : (toBytesBE 4 G.length).length = 4 := toBytesBE_length 4 _
  have hfrom : fromBytesBE (toBytesBE 4 G.length) = G.length :=
    fromBytesBE_toBytesBE 4 _ (by omega)
  have hshape : createFileBytes w h G V =
      0xfa :: 0xff :: w :: h :: (toBytesBE 4 G.length ++
        ((G.map encodeInt32).flatten ++ (V.map (fun v => v.1 ++ v.2)).flatten)) := by
    unfold createFileBytes
    rw [hw', hh']
    simp [List.append_assoc]
  rw [hshape]
  have hG := readG_encode G ((V.map (fun v => v.1 ++ v.2)).flatten ++ []) hg
  rw [List.append_nil] at hG
  have hV := readV_encode (w * ((h - 1) / 8 + 1)) V [] hv
  rw [List.append_nil] at hV
  rw [hlen] at hV
  have := loadFile_of_parts w h (toBytesBE 4 G.length)
    ((G.map encodeInt32).flatten ++ (V.map (fun v => v.1 ++ v.2)).flatten)
    hn4 (by omega) (by omega) (by rw [hfrom]; omega) G
    ((V.map (fun v => v.1 ++ v.2)).flatten) (by rw [hfrom]; exact hG)
    V [] (by rw [hfrom]; exact hV)
  rw [this, hfrom]

theorem claim3_roundtrip_witness :
    loadFile (createFileBytes 2 1 [1, -1] [([0, 0, 0x41], [1, 2]), ([0, 0xFF, 0xFD], [3, 4])]) =
      .ok (2, 1, 2, [1, -1], [([0, 0, 0x41], [1, 2]), ([0, 0xFF, 0xFD], [3, 4])], []) :=
  claim3_roundtrip 2 1 [1, -1] [([0, 0, 0x41], [1, 2]), ([0, 0xFF, 0xFD], [3, 4])]
    (by decide) (by decide) (by decide) (by decide) (by decide) (by decide)
    (by decide) (by decide) (by decide)

theorem readG_replicate0 : ∀ (m : Nat) (tail : List Nat),
    readG m (List.replicate (4 * m) 0 ++ tail) = .ok (List.replicate m 0, tail) := by
  intro m
  induction m with
  | zero => intro tail; simp [readG]
  | succ m ih =>
    intro tail
    have h4 : 4 * (m + 1) = 4 + 4 * m := by ring
    rw [h4, List.replicate_add]
    have hrep4 : (List.replicate 4 (0 : Nat)) = [0, 0, 0, 0] := rfl
    rw [hrep4, List.append_assoc]
    show readG (m + 1) _ = _
    rw [readG]
    have hrb : readBytes 4 ([0, 0, 0, 0] ++ (List.replicate (4 * m) 0 ++ tail)) =
        .ok ([0, 0, 0, 0], List.replicate (4 * m) 0 ++ tail) :=
      readBytes_exact [0, 0, 0, 0] _
    rw [hrb]
    simp only
    rw [ih tail]
    simp only
    have ht : toInt32 (fromBytesBE [0, 0, 0, 0]) = 0 := rfl
    rw [ht, ← List.replicate_succ]

theorem readV_replicate0 : ∀ (m : Nat) (tail : List Nat),
    readV 4 m (List.replicate (4 * m) 0 ++ tail) =
      .ok (List.replicate m ([0, 0, 0], [0]), tail) := by
  intro m
  induction m with
  | zero => intro tail; simp [readV]
  | succ m ih =>
    intro tail
    have h4 : 4 * (m + 1) = 4 + 4 * m := by ring
    rw [h4, List.replicate_add]
    have hrep4 : (List.replicate 4 (0 : Nat)) = [0, 0, 0, 0] := rfl
    rw [hrep4, List.append_assoc]
    show readV 4 (m + 1) _ = _
    rw [readV]
    have hrb : readBytes 4 ([0, 0, 0, 0] ++ (List.replicate (4 * m) 0 ++ tail)) =
        .ok ([0, 0, 0, 0], List.replicate (4 * m) 0 ++ tail) :=
      readBytes_exact [0, 0, 0, 0] _
    rw [hrb]
    simp only
    rw [ih tail]
    simp only
    have hsplit : ((List.take 3 [0, 0, 0, 0] : List Nat),
        (List.drop 3 [0, 0, 0, 0] : List Nat)) = ([0, 0, 0], [0]) := rfl
    rw [hsplit, ← List.replicate_succ]

/-- C6: the decoder rejects zero width, zero height and a zero entry
count, but it accepts an entry count above the documented upper bound
`MAXUCODE = 0x10FFFF`: a file declaring `0x110000` entries (with enough
bytes behind the header) decodes without any error, although the
program's own format documentation declares such a file invalid. -/
theorem claim6_overlarge_count_accepted :
    loadFile [0xfa, 0xff, 0, 1, 0, 0, 0, 1] = .error .zeroWidth ∧
    loadFile [0xfa, 0xff, 1, 0, 0, 0, 0, 1] = .error .zeroHeight ∧
    loadFile [0xfa, 0xff, 1, 1, 0, 0, 0, 0] = .error .emptyTable ∧
    MAXUCODE < 0x110000 ∧
    loadFile (0xfa :: 0xff :: 1 :: 1 :: ([0, 0x11, 0, 0] ++
        (List.replicate (4 * 0x110000) 0 ++ List.replicate (4 * 0x110000) 0))) =
      .ok (1, 1, 0x110000, List.replicate 0x110000 0,
        List.replicate 0x110000 ([0, 0, 0], [0]), []) := by
  refine ⟨rfl, rfl, rfl, by decide, ?_⟩
  have hfrom : fromBytesBE [0, 0x11, 0, 0] = 0x110000 := rfl
  have hG : readG (fromBytesBE [0, 0x11, 0, 0])
      (List.replicate (4 * 0x110000) 0 ++ List.replicate (4 * 0x110000) 0) =
      .ok (List.replicate 0x110000 0, List.replicate (4 * 0x110000) 0) := by
    rw [hfrom]
    exact readG_replicate0 0x110000 _
  have hV : readV (3 + 1 * ((1 - 1) / 8 + 1)) (fromBytesBE [0, 0x11, 0, 0])
      (List.replicate (4 * 0x110000) 0) =
      .ok (List.replicate 0x110000 ([0, 0, 0], [0]), []) := by
    rw [hfrom]
    have := readV_replicate0 0x110000 []
    rw [List.append_nil] at this
    exact this
  have := loadFile_of_parts 1 1 [0, 0x11, 0, 0]
    (List.replicate (4 * 0x110000) 0 ++ List.replicate (4 * 0x110000) 0)
    rfl (by decide) (by decide) (by rw [hfrom]; decide)
    (List.replicate 0x110000 0) (List.replicate (4 * 0x110000) 0) hG
    (List.replicate 0x110000 ([0, 0, 0], [0])) [] hV
  rw [this, hfrom]

/-! ### Decode-consumption lemmas -/

theorem readBytes_mono (k : Nat) (bs x rest : List Nat)
    (h : readBytes k bs = .ok (x, rest)) :
    k ≤ bs.length ∧ x = bs.take k ∧ rest = bs.drop k ∧
    ∀ extra, readBytes k (bs ++ extra) = .ok (x, rest ++ extra) := by
  unfold readBytes at h
  by_cases hk : k ≤ bs.length
  · rw [if_pos hk] at h
    simp only [Except.ok.injEq, Prod.mk.injEq] at h
    obtain ⟨h1, h2⟩ := h
    refine ⟨hk, h1.symm, h2.symm, ?_⟩
    intro extra
    unfold readBytes
    rw [if_pos (by rw [List.length_append]; omega)]
    rw [List.take_append_of_le_length hk, List.drop_append_of_le_length hk,
      ← h1, ← h2]
  · rw [if_neg hk] at h
    exact absurd h (by simp)

theorem readG_mono : ∀ (m : Nat) (bs : List Nat) (G : List Int) (rest : List Nat),
    readG m bs = .ok (G, rest) →
    4 * m ≤ bs.length ∧ rest = bs.drop (4 * m) ∧
    ∀ extra, readG m (bs ++ extra) = .ok (G, rest ++ extra) := by
  intro m
  induction m with
  | zero =>
    intro bs G rest h
    simp only [readG, Except.ok.injEq, Prod.mk.injEq] at h
    obtain ⟨rfl, rfl⟩ := h
    exact ⟨by omega, by simp, fun extra => by simp [readG]⟩
  | succ m ih =>
    intro bs G rest h
    rw [readG] at h
    cases hrb : readBytes 4 bs with
    | error e => rw [hrb] at h; exact absurd h (by simp)
    | ok r1 =>
      obtain ⟨gb, bs1⟩ := r1
      rw [hrb] at h
      simp only at h
      cases hg : readG m bs1 with
      | error e => rw [hg] at h; exact absurd h (by simp)
      | ok r2 =>
        obtain ⟨gs, bs2⟩ := r2
        rw [hg] at h
        simp only [Except.ok.injEq, Prod.mk.injEq] at h
        obtain ⟨rfl, rfl⟩ := h
        obtain ⟨hk, -, hd, hmono⟩ := readBytes_mono 4 bs gb bs1 hrb
        obtain ⟨hk2, hd2, hmono2⟩ := ih bs1 gs bs2 hg
        have hlen1 : bs1.length = bs.length - 4 := by
          rw [hd, List.length_drop]
        refine ⟨by omega, ?_, ?_⟩
        · rw [hd2, hd, List.drop_drop]
          congr 1
          omega
        · intro extra
          rw [readG, hmono extra]
          simp only
          rw [hmono2 extra]

theorem readV_mono (es : Nat) : ∀ (m : Nat) (bs : List Nat) (V : List Entry)
    (rest : List Nat), readV es m bs = .ok (V, rest) →
    es * m ≤ bs.length ∧ rest = bs.drop (es * m) ∧
    ∀ extra, readV es m (bs ++ extra) = .ok (V, rest ++ extra) := by
  intro m
  induction m with
  | zero =>
    intro bs V rest h
    simp only [readV, Except.ok.injEq, Prod.mk.injEq] at h
    obtain ⟨rfl, rfl⟩ := h
    exact ⟨by omega, by simp, fun extra => by simp [readV]⟩
  | succ m ih =>
    intro bs V rest h
    rw [readV] at h
    cases hrb : readBytes es bs with
    | error e => rw [hrb] at h; exact absurd h (by simp)
    | ok r1 =>
      obtain ⟨eb, bs1⟩ := r1
      rw [hrb] at h
      simp only at h
      cases hv : readV es m bs1 with
      | error e => rw [hv] at h; exact absurd h (by simp)
      | ok r2 =>
        obtain ⟨vs, bs2⟩ := r2
        rw [hv] at h
        simp only [Except.ok.injEq, Prod.mk.injEq] at h
        obtain ⟨rfl, rfl⟩ := h
        obtain ⟨hk, -, hd, hmono⟩ := readBytes_mono es bs eb bs1 hrb
        obtain ⟨hk2, hd2, hmono2⟩ := ih bs1 vs bs2 hv
        have hlen1 : bs1.length = bs.length - es := by
          rw [hd, List.length_drop]
        refine ⟨?_, ?_, ?_⟩
        · have hmul : es * (m + 1) = es * m + es := by ring
          omega
        · rw [hd2, hd, List.drop_drop]
          congr 1
          ring
        · intro extra
          rw [readV, hmono extra]
          simp only
          rw [hmono2 extra]

theorem length_eq_six (l : List Nat) (h : l.length = 6) :
    ∃ a b c d e f, l = [a, b, c, d, e, f] := by
  match l, h with
  | [a, b, c, d, e, f], _ => exact ⟨a, b, c, d, e, f, rfl⟩

/-- C10: a successful decode consumes exactly
`8 + 4*n + n*(3 + width*ceil(height/8))` bytes of the input, and any
trailing bytes after the declared tables are ignored: appending extra
bytes leaves the decoded result unchanged (with the extra bytes
unread). -/
theorem claim10_decode_consumes (bs : List Nat) (w h nC : Nat) (G : List Int)
    (V : List Entry) (rest : List Nat)
    (hload : loadFile bs = .ok (w, h, nC, G, V, rest)) :
    8 + 4 * nC + nC * (3 + w * ((h - 1) / 8 + 1)) ≤ bs.length ∧
    rest = bs.drop (8 + 4 * nC + nC * (3 + w * ((h - 1) / 8 + 1))) ∧
    ∀ extra, loadFile (bs ++ extra) = .ok (w, h, nC, G, V, rest ++ extra) := by
  unfold loadFile at hload
  by_cases hsig : bs.take 2 = [0xfa, 0xff]
  case neg => rw [if_neg hsig] at hload; exact absurd hload (by simp)
  rw [if_pos hsig] at hload
  cases hrb : readBytes 6 (bs.drop 2) with
  | error e => rw [hrb] at hload; exact absurd hload (by simp)
  | ok r1 =>
    obtain ⟨hdr, r1b⟩ := r1
    rw [hrb] at hload
    obtain ⟨h6, htake, hdropr, hmono6⟩ := readBytes_mono 6 (bs.drop 2) hdr r1b hrb
    have hhdr6 : hdr.length = 6 := by
      rw [htake, List.length_take]
      omega
    obtain ⟨w', h', a, b2, c, d, rfl⟩ := length_eq_six hdr hhdr6
    simp only at hload
    by_cases hw0 : w' = 0
    · rw [if_pos hw0] at hload; exact absurd hload (by simp)
    rw [if_neg hw0] at hload
    by_cases hh0 : h' = 0
    · rw [if_pos hh0] at hload; exact absurd hload (by simp)
    rw [if_neg hh0] at hload
    by_cases hn0 : fromBytesBE [a, b2, c, d] = 0
    · rw [if_pos hn0] at hload; exact absurd hload (by simp)
    rw [if_neg hn0] at hload
    cases hg : readG (fromBytesBE [a, b2, c, d]) r1b with
    | error e => rw [hg] at hload; exact absurd hload (by simp)
    | ok r2 =>
      obtain ⟨G', r2b⟩ := r2
      rw [hg] at hload
      simp only at hload
      cases hv : readV (3 + w' * ((h' - 1) / 8 + 1)) (fromBytesBE [a, b2, c, d]) r2b with
      | error e => rw [hv] at hload; exact absurd hload (by simp)
      | ok r3 =>
        obtain ⟨V', r3b⟩ := r3
        rw [hv] at hload
        simp only [Except.ok.injEq, Prod.mk.injEq] at hload
        obtain ⟨rfl, rfl, rfl, rfl, rfl, rfl⟩ := hload
        obtain ⟨hkG, hdG, hmonoG⟩ := readG_mono _ r1b G' r2b hg
        obtain ⟨hkV, hdV, hmonoV⟩ := readV_mono _ _ r2b V' r3b hv
        have hlen2 : (bs.drop 2).length = bs.length - 2 := List.length_drop 2 bs
        have hbs8 : 8 ≤ bs.length := by omega
        have hr1b : r1b = bs.drop 8 := by
          rw [hdropr, List.drop_drop]
        have hlenr1b : r1b.length = bs.length - 8 := by
          rw [hr1b, List.length_drop]
        have hr2b : r2b = bs.drop (8 + 4 * fromBytesBE [a, b2, c, d]) := by
          rw [hdG, hr1b, List.drop_drop]
        have hlenr2b : r2b.length =
            bs.length - (8 + 4 * fromBytesBE [a, b2, c, d]) := by
          rw [hr2b, List.length_drop]
        have hcomm : fromBytesBE [a, b2, c, d] * (3 + w' * ((h' - 1) / 8 + 1)) =
            (3 + w' * ((h' - 1) / 8 + 1)) * fromBytesBE [a, b2, c, d] :=
          Nat.mul_comm _ _
        refine ⟨by omega, ?_, ?_⟩
        · rw [hdV, hr2b, List.drop_drop]
          congr 1
          omega
        · intro extra
          unfold loadFile
          rw [List.take_append_of_le_length (by omega), if_pos hsig,
            List.drop_append_of_le_length (by omega), hmono6 extra]
          simp only
          rw [if_neg hw0, if_neg hh0, if_neg hn0, hmonoG extra]
          simp only
          rw [hmonoV extra]

theorem claim10_decode_consumes_witness :
    loadFile ([0xfa, 0xff, 1, 1, 0, 0, 0, 1, 0xff, 0xff, 0xff, 0xff, 0, 0, 0x41, 7]
        ++ [9, 9]) = .ok (1, 1, 1, [-1], [([0, 0, 0x41], [7])], [9, 9]) := by
  have hl : loadFile [0xfa, 0xff, 1, 1, 0, 0, 0, 1, 0xff, 0xff, 0xff, 0xff, 0, 0, 0x41, 7]
      = .ok (1, 1, 1, [-1], [([0, 0, 0x41], [7])], []) := rfl
  exact (claim10_decode_consumes _ 1 1 1 [-1] [([0, 0, 0x41], [7])] [] hl).2.2 [9, 9]

end FaFF
